import Mathlib

/-!
Verification development for the interdoc documentation generator.

The development shallowly embeds the core pipeline of the repository:

* the type-shape decomposer and declaration extractor of src/extract.ts
  (the revision whose property types are structured shapes), and
* the link resolver and markdown renderer of src/markdown.ts, which operate
  on the string-typed documentation model (the extraction revision in which
  a property type is the raw type text).

Machine strings are modelled as Lean strings; JavaScript truthiness of an
optional string is modelled explicitly (undefined and the empty string are
falsy).  The diagnostic sink is modelled as a state-transforming function
threaded through the exact program points at which the source logs.
-/

namespace Interdoc

/-- The open-brace character. -/
def lbrace : Char := '\x7b'

/-- The close-brace character. -/
def rbrace : Char := '\x7d'

/-- The dollar character (it starts the escapes of a JavaScript
replacement string). -/
def dollarChar : Char := '$'

/-- The ampersand character. -/
def ampChar : Char := '&'

/-- The backquote character. -/
def backquoteChar : Char := Char.ofNat 96

/-- The apostrophe character (quoted type literals start and end with it;
after a dollar it is also a JavaScript replacement-string escape). -/
def quoteChar : Char := '\x27'

/-- The quoted literal type text used as a concrete counterexample. -/
def quotedLit : String := String.mk [quoteChar, 'a', quoteChar]

/-- Number of non-overlapping occurrences of the placeholder token
(open brace immediately followed by close brace), scanning left to right. -/
def countPlaceholders : List Char → Nat
  | [] => 0
  | [_] => 0
  | a :: b :: rest =>
    if a = lbrace ∧ b = rbrace then countPlaceholders rest + 1
    else countPlaceholders (b :: rest)

/-- Mirrors JavaScript Array.prototype.join with a separator. -/
def joinSep (sep : String) : List String → String
  | [] => ""
  | [x] => x
  | x :: xs => x ++ sep ++ joinSep sep xs

/-- Concatenation of a list of strings (section texts to whole output). -/
def concatAll (l : List String) : String :=
  l.foldr (fun a b => a ++ b) ""

namespace Extract

/-- Type expressions as classified by extractType in src/extract.ts: a named
reference, an array type, a union, an intersection, or any other node kept as
its raw text. -/
inductive TypeExpr where
  | ref (name : String)
  | array (elem : TypeExpr)
  | union (members : List TypeExpr)
  | intersection (members : List TypeExpr)
  | other (text : String)

/-- The structured type shape of src/extract.ts (source name: Type; renamed
because Type is a universe in Lean): the ordered leaf type names and the
format template holding one placeholder per leaf. -/
structure Ty where
  types : List String
  format : String
deriving DecidableEq

mutual

/-- Decomposition of a present type node, following the branch order of
extractType in src/extract.ts. -/
def extractTypeNode : TypeExpr → Ty
  | .ref n => ⟨[n], "\x7b\x7d"⟩
  | .array e =>
    let t := extractTypeNode e
    ⟨t.types, t.format ++ "[]"⟩
  | .union ms =>
    let ts := extractTypeList ms
    ⟨(ts.map Ty.types).flatten, joinSep (" | ") (ts.map Extract.Ty.format)⟩
  | .intersection ms =>
    let ts := extractTypeList ms
    ⟨(ts.map Ty.types).flatten, joinSep (" | ") (ts.map Extract.Ty.format)⟩
  | .other text => ⟨[text], "\x7b\x7d"⟩

/-- Pointwise decomposition of a member list (the map in the union and
intersection branches of extractType). -/
def extractTypeList : List TypeExpr → List Ty
  | [] => []
  | t :: ts => extractTypeNode t :: extractTypeList ts

end

/-- extractType of src/extract.ts: an absent annotation yields the unknown
type leaf, otherwise the node is decomposed. -/
def extractType : Option TypeExpr → Ty
  | none => ⟨["any"], "\x7b\x7d"⟩
  | some t => extractTypeNode t

/-- A documentation comment tag (a ts.JSDocTag): its tag name and the
normalized comment text, absent when the tag carries none. -/
structure JSDocTag where
  tagName : String
  comment : Option String
deriving DecidableEq

/-- A documentation comment (a ts.JSDoc): the normalized untagged comment
text and the optional tag list. -/
structure JSDoc where
  comment : Option String
  tags : Option (List JSDocTag)
deriving DecidableEq

/-- A property signature member: name text, optional type annotation,
presence of the question token, and the attached doc comment. -/
structure PropertySignature where
  name : String
  type : Option TypeExpr
  questionToken : Bool
  jsdoc : Option JSDoc

/-- An interface member, classified as extractDocumentation does: a property
signature, or any other member kind (carrying only its name text, which the
source uses in a diagnostic). -/
inductive TypeElement where
  | property (p : PropertySignature)
  | otherMember (name : Option String)

/-- A top-level statement as classified by extractDocumentation: interface
declaration, type alias declaration, import declaration, or any other
statement kind.  The export modifier check is carried as a Boolean. -/
inductive Statement where
  | interfaceDecl (exported : Bool) (name : String) (jsdoc : Option JSDoc)
      (members : List TypeElement)
  | typeAlias (exported : Bool) (name : String) (jsdoc : Option JSDoc)
      (type : TypeExpr)
  | importDecl (moduleSpecifier : String)
  | otherStmt (text : String)

/-- Looks up the comment of the first tag with the given name, mirroring the
optional-chained find over jsDoc tags composed with getJSDocComment. -/
def findTagComment (j : Option JSDoc) (nm : String) : Option String :=
  (j.bind fun jd => jd.tags.bind fun tags =>
    tags.find? fun tg => tg.tagName == nm).bind JSDocTag.comment

/-- A documented property of src/extract.ts (structured-shape revision). -/
structure PropertyDocumentation where
  name : String
  description : Option String
  exampleText : Option String
  optional : Bool
  default : Option String
  type : Ty
deriving DecidableEq

/-- A documented declaration of src/extract.ts: interface or type alias. -/
inductive Documentation where
  | interfaceDoc (name : String) (description exampleText : Option String)
      (properties : List PropertyDocumentation)
  | typeDoc (name : String) (description exampleText : Option String) (type : Ty)
deriving DecidableEq

/-- extractPropertyDocumentation of src/extract.ts. -/
def extractPropertyDocumentation (node : PropertySignature) :
    PropertyDocumentation where
  name := node.name
  type := extractType node.type
  optional := node.questionToken
  description := node.jsdoc.bind JSDoc.comment
  default := findTagComment node.jsdoc ("default")
  exampleText := findTagComment node.jsdoc ("example")

/-- extractDocumentation of src/extract.ts, starting from the statement list
of the parsed source file (the parser itself is the external boundary).
Non-exported declarations, non-property members, imports and other statement
kinds contribute nothing; diagnostics of this stage are not modelled because
no claim concerns them. -/
def extractDocumentation : List Statement → List Documentation
  | [] => []
  | .interfaceDecl exported name jsdoc members :: rest =>
    if exported then
      Documentation.interfaceDoc name (jsdoc.bind JSDoc.comment)
        (findTagComment jsdoc ("example"))
        (members.filterMap fun m =>
          match m with
          | .property p => some (extractPropertyDocumentation p)
          | .otherMember _ => none) :: extractDocumentation rest
    else extractDocumentation rest
  | .typeAlias exported name jsdoc ty :: rest =>
    if exported then
      Documentation.typeDoc name (jsdoc.bind JSDoc.comment)
        (findTagComment jsdoc ("example"))
        (extractType (some ty)) :: extractDocumentation rest
    else extractDocumentation rest
  | .importDecl _ :: rest => extractDocumentation rest
  | .otherStmt _ :: rest => extractDocumentation rest

end Extract

/-- JavaScript truthiness of a string-or-undefined value: undefined and the
empty string are falsy. -/
def truthyStr : Option String → Bool
  | some s => s ≠ ""
  | none => false

/-- Mirrors JavaScript String.prototype.endsWith for plain suffixes. -/
def strEndsWith (s suffix : String) : Bool :=
  suffix.data.isSuffixOf s.data

/-- Mirrors JavaScript slice(0, -n): all but the last n characters. -/
def strSliceDropRight (s : String) (n : Nat) : String :=
  String.mk (s.data.take (s.data.length - n))

/-- Replaces the first occurrence of pat by rep taken verbatim, scanning
left to right: the dollar-free specialization of JavaScript replace, used
to state the specification's literal-link reading. -/
def replaceFirstAux (pat rep : List Char) : List Char → List Char
  | [] => if pat.isPrefixOf ([] : List Char) then rep else []
  | c :: rest =>
    if pat.isPrefixOf (c :: rest) then rep ++ (c :: rest).drop pat.length
    else c :: replaceFirstAux pat rep rest

/-- String-level wrapper of replaceFirstAux. -/
def replaceFirstLiteral (s pat rep : String) : String :=
  String.mk (replaceFirstAux pat.data rep.data s.data)

/-- GetSubstitution of the ECMAScript replace algorithm for a string
pattern, which has no capture groups: in the replacement text a dollar
pair collapses to one dollar, dollar-ampersand inserts the matched text,
dollar-backquote the text before the match, dollar-apostrophe the text
after it, and any other dollar (a trailing one, or one before a digit with
no matching capture) stays as-is. -/
def getSubstitution (matched pre suf : List Char) : List Char → List Char
  | [] => []
  | c :: rest =>
    if c = dollarChar then
      match rest with
      | [] => [dollarChar]
      | d :: rest' =>
        if d = dollarChar then
          dollarChar :: getSubstitution matched pre suf rest'
        else if d = ampChar then
          matched ++ getSubstitution matched pre suf rest'
        else if d = backquoteChar then
          pre ++ getSubstitution matched pre suf rest'
        else if d = quoteChar then
          suf ++ getSubstitution matched pre suf rest'
        else dollarChar :: getSubstitution matched pre suf (d :: rest')
    else c :: getSubstitution matched pre suf rest

/-- The scan of JavaScript String.prototype.replace with string arguments:
the first occurrence of pat is replaced by rep with dollar substitution
applied; pre accumulates the text before the current position. -/
def replaceFirstGo (pat rep : List Char) (pre : List Char) :
    List Char → List Char
  | [] =>
    if pat.isPrefixOf ([] : List Char) then getSubstitution pat pre [] rep
    else []
  | c :: rest =>
    if pat.isPrefixOf (c :: rest) then
      getSubstitution pat pre ((c :: rest).drop pat.length) rep ++
        (c :: rest).drop pat.length
    else c :: replaceFirstGo pat rep (pre ++ [c]) rest

/-- The replace call of src/markdown.ts: JavaScript semantics, dollar
substitution of the replacement included. -/
def replaceFirst (s pat rep : String) : String :=
  String.mk (replaceFirstGo pat.data rep.data [] s.data)

namespace Markdown

/-- A documented property in the string-typed model consumed by
src/markdown.ts: the type field is the raw type text. -/
structure PropertyDocumentation where
  name : String
  description : Option String
  exampleText : Option String
  optional : Option Bool
  default : Option String
  type : String
deriving DecidableEq

/-- A documented declaration in the string-typed model consumed by
src/markdown.ts. -/
inductive Documentation where
  | interfaceDoc (name : String) (description exampleText : Option String)
      (properties : List PropertyDocumentation)
  | typeDoc (name : String) (description exampleText : Option String)
      (type : String)
deriving DecidableEq

/-- The declaration name of a documentation entry. -/
def docName : Documentation → String
  | .interfaceDoc n _ _ _ => n
  | .typeDoc n _ _ _ => n

/-- A resolved type link of src/markdown.ts: optional cross-reference target
plus the format template. -/
structure Link where
  toRef : Option String
  format : String
deriving DecidableEq

/-- A linked property of src/markdown.ts. -/
structure LinkedPropertyDocumentation where
  name : String
  type : Link
  optional : Bool
  description : Option String
  default : Option String
  exampleText : Option String
deriving DecidableEq

/-- A linked declaration of src/markdown.ts. -/
inductive LinkedDocumentation where
  | interfaceDoc (description exampleText : Option String)
      (properties : List LinkedPropertyDocumentation)
  | typeDoc (description exampleText : Option String) (type : Link)
deriving DecidableEq

/-- The description of a linked declaration. -/
def ldDescription : LinkedDocumentation → Option String
  | .interfaceDoc d _ _ => d
  | .typeDoc d _ _ => d

/-- The example text of a linked declaration. -/
def ldExample : LinkedDocumentation → Option String
  | .interfaceDoc _ e _ => e
  | .typeDoc _ e _ => e

/-- The type names inlined by linkifyType. -/
def primitiveNames : List String := ["string", "number", "boolean", "any"]

/-- linkifyType of src/markdown.ts: primitives are inlined (the whole format
becomes the literal text, no target); a type text ending in the array suffix
links to the text minus that suffix; anything else links to the whole
text. -/
def linkifyType (type : String) : Link :=
  if type ∈ primitiveNames then ⟨none, type⟩
  else if strEndsWith type ("[]") then
    ⟨some (strSliceDropRight type 2), "\x7b\x7d[]"⟩
  else ⟨some type, "\x7b\x7d"⟩

/-- stringifyLink of src/markdown.ts: a truthy target is substituted for the
first placeholder as a markdown link (or an HTML anchor when useHTML); a
falsy target leaves the format template as the literal output. -/
def stringifyLink (type : Link) (useHTML : Bool) : String :=
  match type.toRef with
  | some t =>
    if t ≠ "" then
      replaceFirst type.format ("\x7b\x7d")
        (if useHTML then "<a href=\"#" ++ t ++ "\">" ++ t ++ "</a>"
         else "[" ++ t ++ "](#" ++ t ++ ")")
    else type.format
  | none => type.format

/-- The linked mapping: a JavaScript object modelled as an insertion-ordered
association list whose keys stay at their original position on overwrite
(string keys that look like array indices are out of reach here, since
declaration names are identifiers). -/
abbrev LinkedRecord := List (String × LinkedDocumentation)

/-- Key-presence test on the mapping (object values are always truthy, so
the source's falsy check on the looked-up value is key absence). -/
def recHas (r : LinkedRecord) (k : String) : Bool :=
  (r : List (String × LinkedDocumentation)).any fun e => e.1 == k

/-- Lookup on the mapping. -/
def recGet (r : LinkedRecord) (k : String) : Option LinkedDocumentation :=
  ((r : List (String × LinkedDocumentation)).find? fun e => e.1 == k).map
    fun e => e.2

/-- Assignment on the mapping: the proto key hits the accessor every plain
object inherits from Object.prototype, which only swaps the prototype and
creates no own entry (the prototype side effect is observable only through
inputs holding a declaration literally named that key, which every general
theorem below excludes and on which the stated counterexample facts agree
with the program); any other key overwrites in place when present and
appends otherwise. -/
def recSet (r : LinkedRecord) (k : String) (v : LinkedDocumentation) :
    LinkedRecord :=
  if k = "__proto__" then r
  else if recHas r k then
    (r : List (String × LinkedDocumentation)).map fun e =>
      if e.1 == k then (k, v) else e
  else (r : List (String × LinkedDocumentation)) ++ [(k, v)]

/-- The property names a plain object inherits from Object.prototype, for
which an index read yields a truthy value even without an own entry: the
Object.prototype methods, and the proto accessor whose read yields the
prototype object. -/
def objectProtoKeys : List String :=
  ["__proto__", "constructor", "hasOwnProperty", "isPrototypeOf",
   "propertyIsEnumerable", "toLocaleString", "toString", "valueOf",
   "__defineGetter__", "__defineSetter__", "__lookupGetter__",
   "__lookupSetter__"]

/-- Truthiness of an index read on the mapping, as the source's falsy check
observes it: an own entry (always a truthy object) or an inherited
Object.prototype member. -/
def lookupTruthy (r : LinkedRecord) (k : String) : Bool :=
  recHas r k || objectProtoKeys.contains k

/-- First pass of preprocessForMarkdown on one property. -/
def linkifyProperty (p : PropertyDocumentation) :
    LinkedPropertyDocumentation where
  name := p.name
  type := linkifyType p.type
  optional := p.optional.getD false
  description := p.description
  default := p.default
  exampleText := p.exampleText

/-- First pass of preprocessForMarkdown on one declaration: the mapping
entry it assigns. -/
def linkifyDoc : Documentation → String × LinkedDocumentation
  | .typeDoc n d e t => (n, .typeDoc d e (linkifyType t))
  | .interfaceDoc n d e ps => (n, .interfaceDoc d e (ps.map linkifyProperty))

/-- One step of the first loop of preprocessForMarkdown. -/
def pass1Step (r : LinkedRecord) (doc : Documentation) : LinkedRecord :=
  recSet r (linkifyDoc doc).1 (linkifyDoc doc).2

/-- The first loop of preprocessForMarkdown: build the mapping. -/
def pass1 (docs : List Documentation) : LinkedRecord :=
  docs.foldl pass1Step []

/-- The unresolved-link degradation of the second loop of
preprocessForMarkdown: a truthy target absent from the mapping replaces the
whole format template with the bare target name and drops the target; the
Boolean reports whether this fired (and hence whether a diagnostic is
emitted). -/
def fixLink (has : String → Bool) (l : Link) : Link × Bool :=
  match l.toRef with
  | some t => if t ≠ "" ∧ has t = false then (⟨none, t⟩, true) else (l, false)
  | none => (l, false)

/-- The diagnostic text of an unresolved type link. -/
def unresolvedMsg (owner : String) : String :=
  "WARNING: Could not resolve type link for " ++ owner

/-- Second-loop handling of one property of an interface entry. -/
def fixPropStep {σ : Type} (log : σ → String → σ) (r : LinkedRecord)
    (owner : String) (acc : List LinkedPropertyDocumentation × σ)
    (p : LinkedPropertyDocumentation) :
    List LinkedPropertyDocumentation × σ :=
  let res := fixLink (fun t => lookupTruthy r t) p.type
  if res.2 then
    (acc.1 ++ [{ p with type := res.1 }],
      log acc.2 (unresolvedMsg (owner ++ "." ++ p.name)))
  else (acc.1 ++ [p], acc.2)

/-- Second-loop handling of one declaration of the input list. -/
def pass2Step {σ : Type} (log : σ → String → σ)
    (acc : LinkedRecord × σ) (doc : Documentation) : LinkedRecord × σ :=
  match recGet acc.1 (docName doc) with
  | none => acc
  | some (.typeDoc d e l) =>
    let res := fixLink (fun t => lookupTruthy acc.1 t) l
    if res.2 then
      (recSet acc.1 (docName doc) (.typeDoc d e res.1),
        log acc.2 (unresolvedMsg (docName doc)))
    else acc
  | some (.interfaceDoc d e ps) =>
    let folded := ps.foldl (fixPropStep log acc.1 (docName doc)) ([], acc.2)
    (recSet acc.1 (docName doc) (.interfaceDoc d e folded.1), folded.2)

/-- preprocessForMarkdown of src/markdown.ts, generic in the diagnostic
sink, which is modelled as a state-transforming function invoked at exactly
the program points at which the source calls log. -/
def preprocessForMarkdownS {σ : Type} (docs : List Documentation)
    (log : σ → String → σ) (s : σ) : LinkedRecord × σ :=
  docs.foldl (pass2Step log) (pass1 docs, s)

/-- The transcript sink: diagnostics are collected in order. -/
def listLog (l : List String) (m : String) : List String := l ++ [m]

/-- preprocessForMarkdown instantiated with the transcript sink: the linked
mapping together with the ordered diagnostics. -/
def preprocessForMarkdown (docs : List Documentation) :
    LinkedRecord × List String :=
  preprocessForMarkdownS docs listLog []

/-- The output format selector of generateMarkdown. -/
inductive OutFormat where
  | tables
  | json
deriving DecidableEq

/-- Mirrors JavaScript String.prototype.padEnd with spaces. -/
def padEnd (s : String) (n : Nat) : String :=
  s ++ String.mk (List.replicate (n - s.length) ' ')

/-- A run of dashes (the separator-row cells). -/
def dashes (n : Nat) : String := String.mk (List.replicate n '-')

/-- The six column widths of generateTable (source name: minLineLength). -/
structure ColWidths where
  property : Nat
  type : Nat
  optional : Nat
  default : Nat
  description : Nat
  exampleText : Nat
deriving DecidableEq

/-- The initial column widths: the header lengths. -/
def headerWidths : ColWidths where
  property := ("Property").length
  type := ("Type").length
  optional := ("Optional").length
  default := ("Default").length
  description := ("Description").length
  exampleText := ("Example").length

/-- One step of the width-maximising loop of generateTable; note the
optional column measures the stringified Boolean, not the rendered cell. -/
def widthStep (w : ColWidths) (p : LinkedPropertyDocumentation) : ColWidths where
  property := max w.property p.name.length
  type := max w.type (stringifyLink p.type false).length
  optional := max w.optional (if p.optional then ("true" : String) else "false").length
  default := max w.default (p.default.getD ("")).length
  description := max w.description (p.description.getD ("")).length
  exampleText := max w.exampleText (p.exampleText.getD ("")).length

/-- The table header row. -/
def tableHeaderRow (w : ColWidths) : String :=
  "| " ++ padEnd ("Property") w.property ++ " | " ++ padEnd ("Type") w.type ++
    " | " ++ padEnd ("Optional") w.optional ++ " | " ++
    padEnd ("Default") w.default ++ " | " ++
    padEnd ("Description") w.description ++ " | " ++
    padEnd ("Example") w.exampleText ++ " |\n"

/-- The table separator row. -/
def tableSepRow (w : ColWidths) : String :=
  "| " ++ dashes w.property ++ " | " ++ dashes w.type ++ " | " ++
    dashes w.optional ++ " | " ++ dashes w.default ++ " | " ++
    dashes w.description ++ " | " ++ dashes w.exampleText ++ " |\n"

/-- One data row of the table. -/
def tableRow (w : ColWidths) (p : LinkedPropertyDocumentation) : String :=
  "| " ++ padEnd p.name w.property ++ " | " ++
    padEnd (stringifyLink p.type false) w.type ++ " | " ++
    padEnd (if p.optional then ("Yes") else "No") w.optional ++ " | " ++
    padEnd (p.default.getD ("-")) w.default ++ " | " ++
    padEnd (p.description.getD ("")) w.description ++ " | " ++
    padEnd (p.exampleText.getD ("")) w.exampleText ++ " |\n"

/-- generateTable of src/markdown.ts over the property list of an interface
entry. -/
def generateTable (properties : List LinkedPropertyDocumentation) : String :=
  let w := properties.foldl widthStep headerWidths
  properties.foldl (fun out p => out ++ tableRow w p)
    (tableHeaderRow w ++ tableSepRow w)

/-- generateJSON of src/markdown.ts over the property list of an interface
entry.  The source's outer guard on any annotation being present is
redundant with the three inner guards and is omitted without observable
difference. -/
def generateJSON (properties : List LinkedPropertyDocumentation) : String :=
  let body := properties.foldl (fun out p =>
    let out := out ++
      (if truthyStr p.description then
        joinSep "\n" (((p.description.getD ("")).splitOn "\n").map
          fun line => "  // " ++ line) ++ "\n"
       else "")
    let out := out ++
      (if truthyStr p.default then
        "  // Defaults to: " ++ p.default.getD ("") ++ "\n"
       else "")
    let out := out ++
      (if truthyStr p.exampleText then
        "  // Example: " ++ p.exampleText.getD ("") ++ "\n"
       else "")
    out ++ "  <strong>" ++ p.name ++ "</strong>" ++
      (if p.optional then ("?") else "") ++ ": " ++
      stringifyLink p.type true ++ ",\n") ""
  "<pre>\n" ++ "\x7b\n" ++ body ++ "\x7d\n" ++ "</pre>\n"

/-- The conditional description paragraph of a section. -/
def descPart (d : Option String) : String :=
  if truthyStr d then d.getD ("") ++ "  \n" else ""

/-- The conditional trailing example block of a section. -/
def examplePart (e : Option String) : String :=
  if truthyStr e then "\n" ++ "Example: \n" ++ e.getD ("") else ""

/-- The body of one iteration of generateMarkdown over an entry of the
mapping. -/
def gmStep {σ : Type} (log : σ → String → σ) (format : OutFormat)
    (acc : String × σ) (e : String × LinkedDocumentation) : String × σ :=
  let out := acc.1 ++ "\n## " ++ e.1 ++ "\n"
  let out := out ++ descPart (ldDescription e.2)
  match e.2 with
  | .typeDoc _ ex l =>
    (out ++ "Type: " ++ stringifyLink l false ++ "\n" ++ examplePart ex, acc.2)
  | .interfaceDoc _ ex ps =>
    match format with
    | .tables =>
      (out ++ generateTable ps ++ examplePart ex,
        log acc.2 ("Generating table for " ++ e.1))
    | .json =>
      (out ++ generateJSON ps ++ examplePart ex,
        log acc.2 ("Generating JSON for " ++ e.1))

/-- generateMarkdown of src/markdown.ts, generic in the diagnostic sink. -/
def generateMarkdownS {σ : Type} (docs : LinkedRecord) (format : OutFormat)
    (log : σ → String → σ) (s : σ) : String × σ :=
  (docs : List (String × LinkedDocumentation)).foldl (gmStep log format) ("", s)

/-- generateMarkdown instantiated with the transcript sink. -/
def generateMarkdown (docs : LinkedRecord) (format : OutFormat) :
    String × List String :=
  generateMarkdownS docs format listLog []

/-- The section text one mapping entry contributes to the rendered output
(the specification's per-declaration rendering rule). -/
def gmSection (format : OutFormat) (e : String × LinkedDocumentation) : String :=
  "\n## " ++ e.1 ++ "\n" ++ descPart (ldDescription e.2) ++
    (match e.2 with
     | .typeDoc _ ex l =>
       "Type: " ++ stringifyLink l false ++ "\n" ++ examplePart ex
     | .interfaceDoc _ ex ps =>
       (match format with
        | .tables => generateTable ps
        | .json => generateJSON ps) ++ examplePart ex)

/-- The column widths as the specification states them: per column, the
maximum of the header length and the widest rendered cell (the optional and
default columns measure the rendered cells, unlike the source's loop). -/
def specWidths (ps : List LinkedPropertyDocumentation) : ColWidths where
  property := ps.foldl (fun a p => max a p.name.length) ("Property").length
  type := ps.foldl (fun a p => max a (stringifyLink p.type false).length)
    ("Type").length
  optional := ps.foldl
    (fun a p => max a (if p.optional then ("Yes" : String) else "No").length)
    ("Optional").length
  default := ps.foldl (fun a p => max a (p.default.getD ("-")).length)
    ("Default").length
  description := ps.foldl (fun a p => max a (p.description.getD ("")).length)
    ("Description").length
  exampleText := ps.foldl (fun a p => max a (p.exampleText.getD ("")).length)
    ("Example").length

/-- The table as the specification states it: header row, separator row and
one data row per property, all sized by specWidths. -/
def specTable (ps : List LinkedPropertyDocumentation) : String :=
  let w := specWidths ps
  tableHeaderRow w ++ tableSepRow w ++ concatAll (ps.map (tableRow w))

/-- The diagnostics the resolver owes one declaration: one message per
truthy type link whose target is not a declared name. -/
def docDiags (has : String → Bool) : Documentation → List String
  | .typeDoc n _ _ t =>
    if (fixLink has (linkifyType t)).2 then [unresolvedMsg n] else []
  | .interfaceDoc n _ _ ps =>
    ps.flatMap fun p =>
      if (fixLink has (linkifyType p.type)).2 then
        [unresolvedMsg (n ++ "." ++ p.name)]
      else []

/-- The pure per-property effect of the second loop. -/
def fixProperty (has : String → Bool) (p : LinkedPropertyDocumentation) :
    LinkedPropertyDocumentation :=
  { p with type := (fixLink has p.type).1 }

/-- The pure per-declaration effect of the second loop. -/
def fixDocu (has : String → Bool) :
    LinkedDocumentation → LinkedDocumentation
  | .typeDoc d e l => .typeDoc d e (fixLink has l).1
  | .interfaceDoc d e ps => .interfaceDoc d e (ps.map (fixProperty has))

/-- The raw type texts reachable in one declaration (the alias target or
every property type). -/
def typeTexts : Documentation → List String
  | .typeDoc _ _ _ t => [t]
  | .interfaceDoc _ _ _ ps => ps.map fun p => p.type

/-- Every link of a linked declaration is inline (no cross-reference
target). -/
def ldNoRef : LinkedDocumentation → Prop
  | .typeDoc _ _ l => l.toRef = none
  | .interfaceDoc _ _ ps => ∀ p ∈ ps, p.type.toRef = none

/-- All reachable type texts of all declarations are primitive names. -/
def allPrimitive (docs : List Documentation) : Prop :=
  ∀ d ∈ docs, ∀ t ∈ typeTexts d, t ∈ primitiveNames

/-- The diagnostics the second loop owes one mapping entry. -/
def linkedDocDiags (has : String → Bool) (n : String) :
    LinkedDocumentation → List String
  | .typeDoc _ _ l => if (fixLink has l).2 then [unresolvedMsg n] else []
  | .interfaceDoc _ _ ps =>
    ps.flatMap fun p =>
      if (fixLink has p.type).2 then [unresolvedMsg (n ++ "." ++ p.name)]
      else []

end Markdown


theorem extractTypeList_eq_map (ts : List Extract.TypeExpr) :
    Extract.extractTypeList ts = ts.map Extract.extractTypeNode := by
  induction ts with
  | nil => rfl
  | cons t ts ih => simp [Extract.extractTypeList, ih]

theorem countPlaceholders_nil : countPlaceholders [] = 0 := rfl

theorem countPlaceholders_single (c : Char) : countPlaceholders [c] = 0 := rfl

theorem countPlaceholders_cons_cons (a b : Char) (l : List Char) :
    countPlaceholders (a :: b :: l) =
      if a = lbrace ∧ b = rbrace then countPlaceholders l + 1
      else countPlaceholders (b :: l) := by
  simp [countPlaceholders]

theorem countPlaceholders_cons_of_ne (c : Char) (l : List Char) (h : c ≠ lbrace) :
    countPlaceholders (c :: l) = countPlaceholders l := by
  cases l with
  | nil => rfl
  | cons d l' => rw [countPlaceholders_cons_cons]; simp [h]

theorem getLast?_append_right {α : Type} (a : List α) {b : List α} (h : b ≠ []) :
    (a ++ b).getLast? = b.getLast? :=
  List.getLast?_append_of_ne_nil a h

theorem lastNe_append {a b : List Char} (ha : a.getLast? ≠ some lbrace)
    (hb : b.getLast? ≠ some lbrace) : (a ++ b).getLast? ≠ some lbrace := by
  by_cases h : b = []
  · subst h; simpa using ha
  · rw [getLast?_append_right a h]; exact hb

theorem countPlaceholders_append :
    ∀ (a b : List Char), a.getLast? ≠ some lbrace →
      countPlaceholders (a ++ b) = countPlaceholders a + countPlaceholders b
  | [], b, _ => by simp [countPlaceholders]
  | [c], b, h => by
    have hc : c ≠ lbrace := by
      intro hcl; exact h (by simp [hcl])
    cases b with
    | nil => simp [countPlaceholders]
    | cons d bs =>
      rw [List.singleton_append, countPlaceholders_cons_of_ne c _ hc,
        countPlaceholders_single]
      omega
  | c :: d :: a', b, h => by
    have h' : (d :: a').getLast? ≠ some lbrace := by
      rwa [List.getLast?_cons_cons] at h
    rw [List.cons_append, List.cons_append, countPlaceholders_cons_cons,
      countPlaceholders_cons_cons]
    by_cases hcd : c = lbrace ∧ d = rbrace
    · have ha' : a'.getLast? ≠ some lbrace := by
        cases a' with
        | nil => simp
        | cons x xs => rwa [List.getLast?_cons_cons] at h'
      rw [if_pos hcd, if_pos hcd, countPlaceholders_append a' b ha']
      omega
    · rw [if_neg hcd, if_neg hcd, ← List.cons_append,
        countPlaceholders_append (d :: a') b h']

theorem countPlaceholders_joinSep :
    ∀ (fs : List String), (∀ f ∈ fs, f.data.getLast? ≠ some lbrace) →
      countPlaceholders (joinSep (" | ") fs).data =
        (fs.map (fun f => countPlaceholders f.data)).sum ∧
      (joinSep (" | ") fs).data.getLast? ≠ some lbrace
  | [], _ => by constructor <;> simp [joinSep, countPlaceholders]
  | [x], h => by
    constructor
    · simp [joinSep]
    · exact h x (by simp)
  | x :: y :: fs, h => by
    have hx : x.data.getLast? ≠ some lbrace := h x (by simp)
    have hrest : ∀ f ∈ y :: fs, f.data.getLast? ≠ some lbrace := by
      intro f hf; exact h f (by simp [hf])
    obtain ⟨ih1, ih2⟩ := countPlaceholders_joinSep (y :: fs) hrest
    have hsep : (" | " : String).data.getLast? ≠ some lbrace := by decide
    have hJ : joinSep (" | ") (x :: y :: fs) =
        x ++ (" | " ++ joinSep (" | ") (y :: fs)) := by
      show x ++ " | " ++ joinSep (" | ") (y :: fs) = _
      rw [String.append_assoc]
    constructor
    · rw [hJ, String.data_append,
        countPlaceholders_append _ _ hx, String.data_append,
        countPlaceholders_append _ _ hsep]
      have hsep0 : countPlaceholders (" | " : String).data = 0 := by decide
      simp [ih1, hsep0]
    · rw [hJ, String.data_append]
      refine lastNe_append hx ?_
      rw [String.data_append]
      exact lastNe_append hsep ih2

mutual

theorem extractTypeNode_inv : ∀ t : Extract.TypeExpr,
    countPlaceholders (Extract.extractTypeNode t).format.data =
      (Extract.extractTypeNode t).types.length ∧
    (Extract.extractTypeNode t).format.data.getLast? ≠ some lbrace
  | .ref n => by constructor <;> simp [Extract.extractTypeNode] <;> decide
  | .array e => by
    obtain ⟨ih1, ih2⟩ := extractTypeNode_inv e
    simp only [Extract.extractTypeNode]
    constructor
    · rw [String.data_append, countPlaceholders_append _ _ ih2, ih1]
      have : countPlaceholders ("[]" : String).data = 0 := by decide
      simp [this]
    · rw [String.data_append]
      refine lastNe_append ih2 ?_
      decide
  | .union ms => by
    have hall := extractTypeList_inv ms
    have hlast : ∀ f ∈ (Extract.extractTypeList ms).map Extract.Ty.format,
        f.data.getLast? ≠ some lbrace := by
      intro f hf
      obtain ⟨ty, hty, rfl⟩ := List.mem_map.mp hf
      exact (hall ty hty).2
    obtain ⟨hcount, hlastJ⟩ := countPlaceholders_joinSep _ hlast
    simp only [Extract.extractTypeNode]
    refine ⟨?_, hlastJ⟩
    rw [hcount, List.length_flatten, List.map_map, List.map_map]
    congr 1
    refine List.map_congr_left ?_
    intro ty hty
    exact (hall ty hty).1
  | .intersection ms => by
    have hall := extractTypeList_inv ms
    have hlast : ∀ f ∈ (Extract.extractTypeList ms).map Extract.Ty.format,
        f.data.getLast? ≠ some lbrace := by
      intro f hf
      obtain ⟨ty, hty, rfl⟩ := List.mem_map.mp hf
      exact (hall ty hty).2
    obtain ⟨hcount, hlastJ⟩ := countPlaceholders_joinSep _ hlast
    simp only [Extract.extractTypeNode]
    refine ⟨?_, hlastJ⟩
    rw [hcount, List.length_flatten, List.map_map, List.map_map]
    congr 1
    refine List.map_congr_left ?_
    intro ty hty
    exact (hall ty hty).1
  | .other text => by constructor <;> simp [Extract.extractTypeNode] <;> decide

theorem extractTypeList_inv : ∀ ts : List Extract.TypeExpr,
    ∀ ty ∈ Extract.extractTypeList ts,
      countPlaceholders ty.format.data = ty.types.length ∧
      ty.format.data.getLast? ≠ some lbrace
  | [] => by intro ty hty; simp [Extract.extractTypeList] at hty
  | t :: ts => by
    intro ty hty
    rw [Extract.extractTypeList] at hty
    rcases List.mem_cons.mp hty with h | h
    · subst h; exact extractTypeNode_inv t
    · exact extractTypeList_inv ts ty h

end

/-- C1: for every shape produced by extractType from any type expression, the
number of entries in its leaf-type list equals the number of placeholder
tokens in its format template. -/
theorem c1_leaf_count_eq_placeholder_count :
    ∀ t : Option Extract.TypeExpr,
      countPlaceholders (Extract.extractType t).format.data =
        (Extract.extractType t).types.length := by
  intro t
  cases t with
  | none => decide
  | some t => exact (extractTypeNode_inv t).1

/-- C2: extractType maps every type expression per the specification table:
absent annotation to the any leaf with a bare placeholder, a named reference
to that single leaf, an array to the inner leaves with the inner format
suffixed by square brackets, a union or intersection to the concatenated
member leaves with the member formats joined by the bar separator (so unions
and intersections over identical member lists coincide), and any other
expression to a single raw-text leaf; in particular the three round-trip
examples of the specification hold. -/
theorem c2_decomposer_table :
    Extract.extractType none = ⟨["any"], "\x7b\x7d"⟩ ∧
    (∀ n, Extract.extractType (some (.ref n)) = ⟨[n], "\x7b\x7d"⟩) ∧
    (∀ e, Extract.extractType (some (.array e)) =
      ⟨(Extract.extractType (some e)).types,
        (Extract.extractType (some e)).format ++ "[]"⟩) ∧
    (∀ ms, Extract.extractType (some (.union ms)) =
      ⟨(ms.map (fun m => (Extract.extractType (some m)).types)).flatten,
        joinSep (" | ") (ms.map (fun m => (Extract.extractType (some m)).format))⟩) ∧
    (∀ ms, Extract.extractType (some (.union ms)) =
      Extract.extractType (some (.intersection ms))) ∧
    (∀ s, Extract.extractType (some (.other s)) = ⟨[s], "\x7b\x7d"⟩) ∧
    Extract.extractType (some (.array (.ref ("A")))) = ⟨["A"], "\x7b\x7d[]"⟩ ∧
    Extract.extractType (some (.union [.ref ("A"), .ref ("B")])) =
      ⟨["A", "B"], "\x7b\x7d | \x7b\x7d"⟩ ∧
    Extract.extractType (some (.other ("string"))) = ⟨["string"], "\x7b\x7d"⟩ := by
  refine ⟨rfl, fun n => rfl, fun e => rfl, ?_, ?_, fun s => rfl, ?_, ?_, rfl⟩
  · intro ms
    simp only [Extract.extractType, Extract.extractTypeNode,
      extractTypeList_eq_map, List.map_map]
    rfl
  · intro ms
    simp [Extract.extractType, Extract.extractTypeNode]
  · decide
  · decide


/-- C6: the declaration extractor returns exactly the exported interface and
type-alias statements, converted in source order; non-exported declarations,
non-property members, imports and other statement kinds never contribute. -/
theorem c6_extractor_keeps_exported_decls_in_order :
    ∀ stmts : List Extract.Statement,
      Extract.extractDocumentation stmts = stmts.filterMap fun s =>
        match s with
        | .interfaceDecl true name jsdoc members =>
          some (.interfaceDoc name (jsdoc.bind Extract.JSDoc.comment)
            (Extract.findTagComment jsdoc ("example"))
            (members.filterMap fun m =>
              match m with
              | .property p => some (Extract.extractPropertyDocumentation p)
              | .otherMember _ => none))
        | .typeAlias true name jsdoc ty =>
          some (.typeDoc name (jsdoc.bind Extract.JSDoc.comment)
            (Extract.findTagComment jsdoc ("example"))
            (Extract.extractType (some ty)))
        | _ => none := by
  intro stmts
  induction stmts with
  | nil => rfl
  | cons s rest ih =>
    cases s with
    | interfaceDecl exported name jsdoc members =>
      cases exported <;> simp [Extract.extractDocumentation, ih]
    | typeAlias exported name jsdoc ty =>
      cases exported <;> simp [Extract.extractDocumentation, ih]
    | importDecl m => simp [Extract.extractDocumentation, ih]
    | otherStmt t => simp [Extract.extractDocumentation, ih]

theorem recHas_true_iff (r : Markdown.LinkedRecord) (k : String) :
    Markdown.recHas r k = true ↔ ∃ e ∈ r, e.1 = k := by
  unfold Markdown.recHas
  rw [List.any_eq_true]
  constructor
  · rintro ⟨e, he, hbe⟩; exact ⟨e, he, beq_iff_eq.mp hbe⟩
  · rintro ⟨e, he, hbe⟩; exact ⟨e, he, beq_iff_eq.mpr hbe⟩

theorem recGet_isSome_recHas {r : Markdown.LinkedRecord} {k : String}
    {v : Markdown.LinkedDocumentation} (h : Markdown.recGet r k = some v) :
    Markdown.recHas r k = true := by
  unfold Markdown.recGet at h
  rcases Option.map_eq_some'.mp h with ⟨e, hfind, _⟩
  have hbe := List.find?_some hfind
  exact (recHas_true_iff r k).mpr
    ⟨e, List.mem_of_find?_eq_some hfind, beq_iff_eq.mp hbe⟩

theorem find?_map_set (k : String) (v : Markdown.LinkedDocumentation) :
    ∀ r : List (String × Markdown.LinkedDocumentation),
      (r.map fun e => if e.1 == k then (k, v) else e).find?
          (fun e => e.1 == k) =
        (r.find? fun e => e.1 == k).map fun _ => (k, v)
  | [] => rfl
  | e :: rest => by
    cases he : (e.1 == k) with
    | true =>
      have heq : e.1 = k := beq_iff_eq.mp he
      simp [List.find?_cons, heq, beq_self_eq_true]
    | false =>
      simp only [List.map_cons, he, Bool.false_eq_true, if_false,
        List.find?_cons]
      exact find?_map_set k v rest

theorem find?_map_set_ne (k k' : String) (v : Markdown.LinkedDocumentation)
    (hne : k' ≠ k) :
    ∀ r : List (String × Markdown.LinkedDocumentation),
      (r.map fun e => if e.1 == k then (k, v) else e).find?
          (fun e => e.1 == k') =
        r.find? fun e => e.1 == k'
  | [] => rfl
  | e :: rest => by
    have hkk : (k == k') = false :=
      beq_eq_false_iff_ne.mpr fun hk => hne hk.symm
    cases he : (e.1 == k) with
    | true =>
      have he1 : (e.1 == k') = false := by
        rw [beq_iff_eq.mp he]; exact hkk
      simp only [List.map_cons, he, if_true, List.find?_cons, hkk, he1]
      exact find?_map_set_ne k k' v hne rest
    | false =>
      cases he' : (e.1 == k') with
      | true =>
        simp only [List.map_cons, he, Bool.false_eq_true, if_false,
          List.find?_cons, he']
      | false =>
        simp only [List.map_cons, he, Bool.false_eq_true, if_false,
          List.find?_cons, he']
        exact find?_map_set_ne k k' v hne rest

theorem recGet_set_eq (r : Markdown.LinkedRecord) (k : String)
    (v : Markdown.LinkedDocumentation) (hk : k ≠ "__proto__") :
    Markdown.recGet (Markdown.recSet r k v) k = some v := by
  unfold Markdown.recSet
  rw [if_neg hk]
  by_cases h : Markdown.recHas r k = true
  · rw [if_pos h]
    unfold Markdown.recGet
    rw [find?_map_set]
    rcases (recHas_true_iff r k).mp h with ⟨e, he, hek⟩
    have : (r.find? fun e => e.1 == k).isSome = true := by
      rw [List.find?_isSome]
      exact ⟨e, he, beq_iff_eq.mpr hek⟩
    rcases Option.isSome_iff_exists.mp this with ⟨e', he'⟩
    rw [he']
    rfl
  · rw [if_neg h]
    unfold Markdown.recGet
    rw [List.find?_append]
    have hnone : (r.find? fun e => e.1 == k) = none := by
      rw [List.find?_eq_none]
      intro e he hbe
      exact h ((recHas_true_iff r k).mpr ⟨e, he, beq_iff_eq.mp hbe⟩)
    simp [hnone, List.find?_cons, beq_self_eq_true]

theorem recGet_set_ne (r : Markdown.LinkedRecord) (k k' : String)
    (v : Markdown.LinkedDocumentation) (h : k' ≠ k) :
    Markdown.recGet (Markdown.recSet r k v) k' = Markdown.recGet r k' := by
  unfold Markdown.recSet
  by_cases hk : k = "__proto__"
  · rw [if_pos hk]
  rw [if_neg hk]
  by_cases hh : Markdown.recHas r k = true
  · rw [if_pos hh]
    unfold Markdown.recGet
    rw [find?_map_set_ne k k' v h]
  · rw [if_neg hh]
    unfold Markdown.recGet
    rw [List.find?_append]
    have : (([(k, v)] : List (String × Markdown.LinkedDocumentation)).find?
        fun e => e.1 == k') = none := by
      rw [List.find?_eq_none]
      intro e he hbe
      rw [List.mem_singleton] at he
      subst he
      exact h (beq_iff_eq.mp hbe).symm
    rw [this]
    cases r.find? fun e => e.1 == k' <;> rfl

theorem recSet_keys (r : Markdown.LinkedRecord) (k : String)
    (v : Markdown.LinkedDocumentation) (h : Markdown.recHas r k = true) :
    (Markdown.recSet r k v).map Prod.fst = r.map Prod.fst := by
  unfold Markdown.recSet
  by_cases hk : k = "__proto__"
  · rw [if_pos hk]
  rw [if_neg hk, if_pos h, List.map_map]
  refine List.map_congr_left ?_
  intro e _
  by_cases he : (e.1 == k) = true
  · simp only [Function.comp_apply, if_pos he]
    exact (beq_iff_eq.mp he).symm
  · simp only [Function.comp_apply, if_neg he]

theorem recHas_eq_keys (r : Markdown.LinkedRecord) (k : String) :
    Markdown.recHas r k = ((r.map Prod.fst).any fun x => x == k) := by
  unfold Markdown.recHas
  induction r with
  | nil => rfl
  | cons e rest ih => simp only [List.any_cons, List.map_cons, ih]

theorem recHas_set (r : Markdown.LinkedRecord) (k k' : String)
    (v : Markdown.LinkedDocumentation) (hkp : k' ≠ "__proto__") :
    Markdown.recHas (Markdown.recSet r k' v) k =
      ((k' == k) || Markdown.recHas r k) := by
  by_cases hh : Markdown.recHas r k' = true
  · rw [recHas_eq_keys, recSet_keys r k' v hh, ← recHas_eq_keys]
    by_cases hk : (k' == k) = true
    · have : Markdown.recHas r k = true := by
        rw [← beq_iff_eq.mp hk]; exact hh
      simp [hk, this]
    · simp only [hk, Bool.false_or]
  · unfold Markdown.recSet
    rw [if_neg hkp, if_neg hh]
    unfold Markdown.recHas
    rw [List.any_append]
    simp [Bool.or_comm]

theorem linkifyDoc_fst (d : Markdown.Documentation) :
    (Markdown.linkifyDoc d).1 = Markdown.docName d := by
  cases d <;> rfl

theorem foldl_pass1_get :
    ∀ (docs : List Markdown.Documentation) (r : Markdown.LinkedRecord)
      (k : String),
      Markdown.recGet (docs.foldl Markdown.pass1Step r) k =
        if k = "__proto__" then Markdown.recGet r k
        else
          match docs.reverse.find? (fun d => Markdown.docName d == k) with
          | some d => some (Markdown.linkifyDoc d).2
          | none => Markdown.recGet r k
  | [], r, k => by
    by_cases hk : k = "__proto__" <;> simp [hk]
  | d :: rest, r, k => by
    rw [List.foldl_cons, foldl_pass1_get rest _ k]
    by_cases hk : k = "__proto__"
    · rw [if_pos hk, if_pos hk]
      unfold Markdown.pass1Step
      by_cases hd : (Markdown.linkifyDoc d).1 = "__proto__"
      · unfold Markdown.recSet
        rw [if_pos hd]
      · rw [recGet_set_ne _ _ _ _ (hk ▸ fun hh => hd hh.symm)]
    rw [if_neg hk, if_neg hk, List.reverse_cons, List.find?_append]
    cases hf : rest.reverse.find? fun d => Markdown.docName d == k with
    | some d' => rfl
    | none =>
      simp only [Option.none_or]
      cases hd : (Markdown.docName d == k) with
      | true =>
        have hkd : Markdown.docName d = k := beq_iff_eq.mp hd
        simp only [List.find?_cons, hd]
        unfold Markdown.pass1Step
        rw [linkifyDoc_fst, hkd, recGet_set_eq _ _ _ hk]
      | false =>
        have hkd : k ≠ Markdown.docName d := by
          intro hkk
          rw [← hkk] at hd
          simp [beq_self_eq_true] at hd
        simp only [List.find?_cons, hd]
        unfold Markdown.pass1Step
        rw [linkifyDoc_fst, recGet_set_ne _ _ _ _ hkd]
        rfl

theorem foldl_pass1_has :
    ∀ (docs : List Markdown.Documentation) (r : Markdown.LinkedRecord)
      (k : String),
      Markdown.recHas (docs.foldl Markdown.pass1Step r) k =
        if k = "__proto__" then Markdown.recHas r k
        else
          (docs.any (fun d => Markdown.docName d == k) || Markdown.recHas r k)
  | [], r, k => by
    by_cases hk : k = "__proto__" <;> simp [hk]
  | d :: rest, r, k => by
    rw [List.foldl_cons, foldl_pass1_has rest _ k]
    by_cases hd : (Markdown.linkifyDoc d).1 = "__proto__"
    · have hstep : Markdown.pass1Step r d = r := by
        unfold Markdown.pass1Step Markdown.recSet
        rw [if_pos hd]
      rw [hstep]
      by_cases hk : k = "__proto__"
      · rw [if_pos hk, if_pos hk]
      · rw [if_neg hk, if_neg hk, List.any_cons]
        have hdk : (Markdown.docName d == k) = false := by
          rw [beq_eq_false_iff_ne, ← linkifyDoc_fst]
          intro hh
          exact hk (hh ▸ hd)
        rw [hdk, Bool.false_or]
    · have hstep : Markdown.recHas (Markdown.pass1Step r d) k =
          (((Markdown.linkifyDoc d).1 == k) || Markdown.recHas r k) := by
        unfold Markdown.pass1Step
        exact recHas_set r k _ _ hd
      by_cases hk : k = "__proto__"
      · rw [if_pos hk, if_pos hk, hstep]
        have hdk : ((Markdown.linkifyDoc d).1 == k) = false := by
          rw [beq_eq_false_iff_ne]
          intro hh
          exact hd (hk ▸ hh)
        rw [hdk, Bool.false_or]
      · rw [if_neg hk, if_neg hk, hstep, linkifyDoc_fst, List.any_cons]
        cases Markdown.docName d == k <;>
          cases rest.any (fun d => Markdown.docName d == k) <;>
          cases Markdown.recHas r k <;> rfl

theorem recHas_false_not_mem {r : Markdown.LinkedRecord} {k : String}
    (h : Markdown.recHas r k = false) : k ∉ r.map Prod.fst := by
  intro hmem
  rcases List.mem_map.mp hmem with ⟨e, he, hek⟩
  have := (recHas_true_iff r k).mpr ⟨e, he, hek⟩
  rw [h] at this
  exact Bool.false_ne_true this

theorem foldl_pass1_keys_nodup :
    ∀ (docs : List Markdown.Documentation) (r : Markdown.LinkedRecord),
      (r.map Prod.fst).Nodup → ((docs.foldl Markdown.pass1Step r).map Prod.fst).Nodup
  | [], r, h => h
  | d :: rest, r, h => by
    rw [List.foldl_cons]
    refine foldl_pass1_keys_nodup rest _ ?_
    unfold Markdown.pass1Step
    by_cases hd : (Markdown.linkifyDoc d).1 = "__proto__"
    · unfold Markdown.recSet
      rwa [if_pos hd]
    cases hh : Markdown.recHas r (Markdown.linkifyDoc d).1 with
    | true => rwa [recSet_keys _ _ _ hh]
    | false =>
      unfold Markdown.recSet
      rw [if_neg hd, hh]
      simp only [Bool.false_eq_true, if_false, List.map_append, List.map_cons,
        List.map_nil]
      rw [List.nodup_append]
      refine ⟨h, List.nodup_singleton _, ?_⟩
      intro x hx hx1
      rw [List.mem_singleton] at hx1
      subst hx1
      exact recHas_false_not_mem hh hx

theorem fixLink_false_fst {has : String → Bool} {l : Markdown.Link}
    (h : (Markdown.fixLink has l).2 = false) :
    (Markdown.fixLink has l).1 = l := by
  cases hr : l.toRef with
  | none => simp [Markdown.fixLink, hr]
  | some t =>
    by_cases hc : t ≠ "" ∧ has t = false
    · simp [Markdown.fixLink, hr, hc] at h
    · simp [Markdown.fixLink, hr, hc]

theorem fixLink_idem (has : String → Bool) (l : Markdown.Link) :
    Markdown.fixLink has (Markdown.fixLink has l).1 =
      ((Markdown.fixLink has l).1, false) := by
  cases hr : l.toRef with
  | none => simp [Markdown.fixLink, hr]
  | some t =>
    by_cases hc : t ≠ "" ∧ has t = false
    · simp [Markdown.fixLink, hr, hc]
    · simp [Markdown.fixLink, hr, hc]

theorem fixProperty_idem (has : String → Bool)
    (p : Markdown.LinkedPropertyDocumentation) :
    Markdown.fixProperty has (Markdown.fixProperty has p) =
      Markdown.fixProperty has p := by
  unfold Markdown.fixProperty
  have := fixLink_idem has p.type
  simp [this]

theorem fixDocu_idem (has : String → Bool) (v : Markdown.LinkedDocumentation) :
    Markdown.fixDocu has (Markdown.fixDocu has v) = Markdown.fixDocu has v := by
  cases v with
  | typeDoc d e l =>
    simp only [Markdown.fixDocu]
    rw [fixLink_idem]
  | interfaceDoc d e ps =>
    simp only [Markdown.fixDocu, List.map_map]
    congr 1
    refine List.map_congr_left fun p _ => ?_
    exact fixProperty_idem has p

theorem fixPropFold_fst {σ : Type} (log : σ → String → σ)
    (r : Markdown.LinkedRecord) (n : String) :
    ∀ (ps : List Markdown.LinkedPropertyDocumentation)
      (acc : List Markdown.LinkedPropertyDocumentation) (s : σ),
      (ps.foldl (Markdown.fixPropStep log r n) (acc, s)).1 =
        acc ++ ps.map (Markdown.fixProperty fun t => Markdown.lookupTruthy r t)
  | [], acc, s => by simp
  | p :: ps, acc, s => by
    rw [List.foldl_cons]
    cases hres : (Markdown.fixLink (fun t => Markdown.lookupTruthy r t) p.type).2 with
    | true =>
      have hstep : Markdown.fixPropStep log r n (acc, s) p =
          (acc ++ [{ p with
            type := (Markdown.fixLink (fun t => Markdown.lookupTruthy r t) p.type).1 }],
           log s (Markdown.unresolvedMsg (n ++ "." ++ p.name))) := by
        simp [Markdown.fixPropStep, hres]
      rw [hstep, fixPropFold_fst log r n ps _ _]
      unfold Markdown.fixProperty
      simp
    | false =>
      have hstep : Markdown.fixPropStep log r n (acc, s) p = (acc ++ [p], s) := by
        simp [Markdown.fixPropStep, hres]
      rw [hstep, fixPropFold_fst log r n ps _ _]
      have hp : Markdown.fixProperty (fun t => Markdown.lookupTruthy r t) p = p := by
        unfold Markdown.fixProperty
        rw [fixLink_false_fst hres]
      simp [hp]

theorem fixPropFold_diags (r : Markdown.LinkedRecord) (n : String) :
    ∀ (ps : List Markdown.LinkedPropertyDocumentation)
      (acc : List Markdown.LinkedPropertyDocumentation) (s : List String),
      (ps.foldl (Markdown.fixPropStep Markdown.listLog r n) (acc, s)).2 =
        s ++ ps.flatMap fun p =>
          if (Markdown.fixLink (fun t => Markdown.lookupTruthy r t) p.type).2 then
            [Markdown.unresolvedMsg (n ++ "." ++ p.name)]
          else []
  | [], acc, s => by simp
  | p :: ps, acc, s => by
    rw [List.foldl_cons]
    cases hres : (Markdown.fixLink (fun t => Markdown.lookupTruthy r t) p.type).2 with
    | true =>
      have hstep : Markdown.fixPropStep Markdown.listLog r n (acc, s) p =
          (acc ++ [{ p with
            type := (Markdown.fixLink (fun t => Markdown.lookupTruthy r t) p.type).1 }],
           s ++ [Markdown.unresolvedMsg (n ++ "." ++ p.name)]) := by
        simp [Markdown.fixPropStep, Markdown.listLog, hres]
      rw [hstep, fixPropFold_diags r n ps _ _]
      simp [hres]
    | false =>
      have hstep : Markdown.fixPropStep Markdown.listLog r n (acc, s) p =
          (acc ++ [p], s) := by
        simp [Markdown.fixPropStep, hres]
      rw [hstep, fixPropFold_diags r n ps _ _]
      simp [hres]

theorem pass2Step_keys {σ : Type} (log : σ → String → σ)
    (r : Markdown.LinkedRecord) (s : σ) (d : Markdown.Documentation) :
    ((Markdown.pass2Step log (r, s) d).1).map Prod.fst = r.map Prod.fst := by
  cases hg : Markdown.recGet r (Markdown.docName d) with
  | none => simp [Markdown.pass2Step, hg]
  | some v =>
    cases v with
    | typeDoc dd ee l =>
      cases hres : (Markdown.fixLink (fun t => Markdown.lookupTruthy r t) l).2 with
      | true =>
        simp only [Markdown.pass2Step, hg, hres, if_true]
        exact recSet_keys _ _ _ (recGet_isSome_recHas hg)
      | false => simp [Markdown.pass2Step, hg, hres]
    | interfaceDoc dd ee ps =>
      simp only [Markdown.pass2Step, hg]
      exact recSet_keys _ _ _ (recGet_isSome_recHas hg)

theorem pass2Step_has {σ : Type} (log : σ → String → σ)
    (r : Markdown.LinkedRecord) (s : σ) (d : Markdown.Documentation)
    (t : String) :
    Markdown.recHas ((Markdown.pass2Step log (r, s) d).1) t =
      Markdown.recHas r t := by
  rw [recHas_eq_keys, pass2Step_keys, ← recHas_eq_keys]

theorem pass2Step_lookup {σ : Type} (log : σ → String → σ)
    (r : Markdown.LinkedRecord) (s : σ) (d : Markdown.Documentation)
    (t : String) :
    Markdown.lookupTruthy ((Markdown.pass2Step log (r, s) d).1) t =
      Markdown.lookupTruthy r t := by
  unfold Markdown.lookupTruthy
  rw [pass2Step_has]

theorem pass2Step_get {σ : Type} (log : σ → String → σ)
    (r : Markdown.LinkedRecord) (s : σ) (d : Markdown.Documentation)
    (k : String) (hr : Markdown.recHas r ("__proto__") = false) :
    Markdown.recGet ((Markdown.pass2Step log (r, s) d).1) k =
      if Markdown.docName d = k then
        (Markdown.recGet r k).map
          (Markdown.fixDocu fun t => Markdown.lookupTruthy r t)
      else Markdown.recGet r k := by
  by_cases hdk : Markdown.docName d = k
  · rw [if_pos hdk, ← hdk]
    cases hg : Markdown.recGet r (Markdown.docName d) with
    | none => simp [Markdown.pass2Step, hg]
    | some v =>
      cases v with
      | typeDoc dd ee l =>
        cases hres : (Markdown.fixLink (fun t => Markdown.lookupTruthy r t) l).2 with
        | true =>
          have hdp : Markdown.docName d ≠ "__proto__" := by
            intro hh
            rw [hh] at hg
            rw [recGet_isSome_recHas hg] at hr
            simp at hr
          simp only [Markdown.pass2Step, hg, hres, if_true]
          rw [recGet_set_eq _ _ _ hdp]
          simp [Markdown.fixDocu]
        | false =>
          simp only [Markdown.pass2Step, hg, hres, Bool.false_eq_true, if_false]
          simp [Markdown.fixDocu, fixLink_false_fst hres]
      | interfaceDoc dd ee ps =>
        have hdp : Markdown.docName d ≠ "__proto__" := by
          intro hh
          rw [hh] at hg
          rw [recGet_isSome_recHas hg] at hr
          simp at hr
        simp only [Markdown.pass2Step, hg]
        rw [recGet_set_eq _ _ _ hdp, fixPropFold_fst]
        simp [Markdown.fixDocu]
  · rw [if_neg hdk]
    have hne : k ≠ Markdown.docName d := fun h => hdk h.symm
    cases hg : Markdown.recGet r (Markdown.docName d) with
    | none => simp [Markdown.pass2Step, hg]
    | some v =>
      cases v with
      | typeDoc dd ee l =>
        cases hres : (Markdown.fixLink (fun t => Markdown.lookupTruthy r t) l).2 with
        | true =>
          simp only [Markdown.pass2Step, hg, hres, if_true]
          exact recGet_set_ne _ _ _ _ hne
        | false => simp [Markdown.pass2Step, hg, hres]
      | interfaceDoc dd ee ps =>
        simp only [Markdown.pass2Step, hg]
        exact recGet_set_ne _ _ _ _ hne

theorem pass2Step_diags (r : Markdown.LinkedRecord) (s : List String)
    (d : Markdown.Documentation) :
    (Markdown.pass2Step Markdown.listLog (r, s) d).2 =
      s ++ (match Markdown.recGet r (Markdown.docName d) with
        | none => []
        | some v =>
          Markdown.linkedDocDiags (fun t => Markdown.lookupTruthy r t)
            (Markdown.docName d) v) := by
  cases hg : Markdown.recGet r (Markdown.docName d) with
  | none => simp [Markdown.pass2Step, hg]
  | some v =>
    cases v with
    | typeDoc dd ee l =>
      cases hres : (Markdown.fixLink (fun t => Markdown.lookupTruthy r t) l).2 with
      | true =>
        simp [Markdown.pass2Step, hg, hres, Markdown.linkedDocDiags,
          Markdown.listLog]
      | false =>
        simp [Markdown.pass2Step, hg, hres, Markdown.linkedDocDiags]
    | interfaceDoc dd ee ps =>
      simp only [Markdown.pass2Step, hg]
      rw [fixPropFold_diags]
      simp [Markdown.linkedDocDiags]

theorem pass2_fold_keys {σ : Type} (log : σ → String → σ) :
    ∀ (docs : List Markdown.Documentation) (r : Markdown.LinkedRecord) (s : σ),
      ((docs.foldl (Markdown.pass2Step log) (r, s)).1).map Prod.fst =
        r.map Prod.fst
  | [], r, s => rfl
  | d :: rest, r, s => by
    rw [List.foldl_cons]
    exact (pass2_fold_keys log rest (Markdown.pass2Step log (r, s) d).1
      (Markdown.pass2Step log (r, s) d).2).trans (pass2Step_keys log r s d)

theorem pass2_fold_get {σ : Type} (log : σ → String → σ) :
    ∀ (docs : List Markdown.Documentation) (r : Markdown.LinkedRecord)
      (s : σ) (k : String),
      Markdown.recHas r ("__proto__") = false →
      Markdown.recGet ((docs.foldl (Markdown.pass2Step log) (r, s)).1) k =
        if docs.any (fun d => Markdown.docName d == k) then
          (Markdown.recGet r k).map
            (Markdown.fixDocu fun t => Markdown.lookupTruthy r t)
        else Markdown.recGet r k
  | [], r, s, k, _ => by simp
  | d :: rest, r, s, k, hr => by
    rw [List.foldl_cons]
    have hr' : Markdown.recHas ((Markdown.pass2Step log (r, s) d).1)
        ("__proto__") = false := by
      rw [pass2Step_has]
      exact hr
    have ih := pass2_fold_get log rest (Markdown.pass2Step log (r, s) d).1
      (Markdown.pass2Step log (r, s) d).2 k hr'
    have hfun : (fun t =>
        Markdown.lookupTruthy ((Markdown.pass2Step log (r, s) d).1) t) =
        (fun t => Markdown.lookupTruthy r t) :=
      funext fun t => pass2Step_lookup log r s d t
    rw [hfun] at ih
    rw [show rest.foldl (Markdown.pass2Step log) (Markdown.pass2Step log (r, s) d) =
      rest.foldl (Markdown.pass2Step log)
        ((Markdown.pass2Step log (r, s) d).1,
         (Markdown.pass2Step log (r, s) d).2) from rfl]
    rw [ih, pass2Step_get log r s d k hr, List.any_cons]
    cases hd : (Markdown.docName d == k) with
    | true =>
      have hdk : Markdown.docName d = k := beq_iff_eq.mp hd
      rw [if_pos hdk]
      simp only [Bool.true_or, if_true]
      cases hrest : rest.any (fun d => Markdown.docName d == k) with
      | true =>
        simp only [if_true]
        rw [Option.map_map]
        congr 1
        funext v
        exact fixDocu_idem _ v
      | false => simp
    | false =>
      have hdk : Markdown.docName d ≠ k := by
        intro h
        rw [h] at hd
        simp [beq_self_eq_true] at hd
      rw [if_neg hdk]
      simp only [Bool.false_or]

theorem pass2_fold_diags :
    ∀ (docs : List Markdown.Documentation) (r : Markdown.LinkedRecord)
      (s : List String),
      Markdown.recHas r ("__proto__") = false →
      (∀ d ∈ docs, Markdown.recGet r (Markdown.docName d) =
        some (Markdown.linkifyDoc d).2) →
      (docs.map Markdown.docName).Nodup →
      (docs.foldl (Markdown.pass2Step Markdown.listLog) (r, s)).2 =
        s ++ docs.flatMap fun d =>
          Markdown.linkedDocDiags (fun t => Markdown.lookupTruthy r t)
            (Markdown.docName d) (Markdown.linkifyDoc d).2
  | [], r, s, _, _, _ => by simp
  | d :: rest, r, s, hr, hget, hnd => by
    rw [List.foldl_cons]
    have hdnotin : Markdown.docName d ∉ rest.map Markdown.docName := by
      rw [List.map_cons, List.nodup_cons] at hnd
      exact hnd.1
    have hndrest : (rest.map Markdown.docName).Nodup := by
      rw [List.map_cons, List.nodup_cons] at hnd
      exact hnd.2
    have hr' : Markdown.recHas
        ((Markdown.pass2Step Markdown.listLog (r, s) d).1) ("__proto__") =
        false := by
      rw [pass2Step_has]
      exact hr
    have hgetrest : ∀ d' ∈ rest,
        Markdown.recGet ((Markdown.pass2Step Markdown.listLog (r, s) d).1)
          (Markdown.docName d') = some (Markdown.linkifyDoc d').2 := by
      intro d' hd'
      rw [pass2Step_get Markdown.listLog r s d _ hr]
      have hne : Markdown.docName d ≠ Markdown.docName d' := by
        intro h
        exact hdnotin (h ▸ List.mem_map_of_mem Markdown.docName hd')
      rw [if_neg hne]
      exact hget d' (List.mem_cons_of_mem d hd')
    have ih := pass2_fold_diags rest
      (Markdown.pass2Step Markdown.listLog (r, s) d).1
      (Markdown.pass2Step Markdown.listLog (r, s) d).2 hr' hgetrest hndrest
    have hfun : (fun t =>
        Markdown.lookupTruthy
          ((Markdown.pass2Step Markdown.listLog (r, s) d).1) t) =
        (fun t => Markdown.lookupTruthy r t) :=
      funext fun t => pass2Step_lookup Markdown.listLog r s d t
    rw [hfun] at ih
    rw [show rest.foldl (Markdown.pass2Step Markdown.listLog)
        (Markdown.pass2Step Markdown.listLog (r, s) d) =
      rest.foldl (Markdown.pass2Step Markdown.listLog)
        ((Markdown.pass2Step Markdown.listLog (r, s) d).1,
         (Markdown.pass2Step Markdown.listLog (r, s) d).2) from rfl]
    rw [ih, pass2Step_diags r s d, hget d (List.mem_cons_self d rest)]
    simp [List.flatMap_cons, List.append_assoc]

theorem gmStep_fst {σ : Type} (log : σ → String → σ) (fmt : Markdown.OutFormat)
    (acc : String × σ) (e : String × Markdown.LinkedDocumentation) :
    (Markdown.gmStep log fmt acc e).1 = acc.1 ++ Markdown.gmSection fmt e := by
  rcases e with ⟨name, doc⟩
  cases doc with
  | typeDoc d ex l =>
    simp [Markdown.gmStep, Markdown.gmSection, Markdown.ldDescription,
      String.append_assoc]
  | interfaceDoc d ex ps =>
    cases fmt <;>
      simp [Markdown.gmStep, Markdown.gmSection, Markdown.ldDescription,
        String.append_assoc]

theorem gm_fold_fst {σ : Type} (log : σ → String → σ) (fmt : Markdown.OutFormat) :
    ∀ (entries : List (String × Markdown.LinkedDocumentation))
      (out : String) (s : σ),
      (entries.foldl (Markdown.gmStep log fmt) (out, s)).1 =
        out ++ concatAll (entries.map (Markdown.gmSection fmt))
  | [], out, s => by simp [concatAll]
  | e :: rest, out, s => by
    rw [List.foldl_cons]
    have ih := gm_fold_fst log fmt rest (Markdown.gmStep log fmt (out, s) e).1
      (Markdown.gmStep log fmt (out, s) e).2
    rw [show rest.foldl (Markdown.gmStep log fmt) (Markdown.gmStep log fmt (out, s) e) =
      rest.foldl (Markdown.gmStep log fmt)
        ((Markdown.gmStep log fmt (out, s) e).1,
         (Markdown.gmStep log fmt (out, s) e).2) from rfl]
    rw [ih, gmStep_fst, String.append_assoc]
    rfl

theorem generateMarkdownS_fst {σ : Type} (m : Markdown.LinkedRecord)
    (fmt : Markdown.OutFormat) (log : σ → String → σ) (s : σ) :
    (Markdown.generateMarkdownS m fmt log s).1 =
      concatAll (m.map (Markdown.gmSection fmt)) := by
  unfold Markdown.generateMarkdownS
  rw [gm_fold_fst, String.empty_append]

theorem getSubstitution_id (matched pre suf : List Char) :
    ∀ l : List Char, dollarChar ∉ l →
      getSubstitution matched pre suf l = l
  | [], _ => rfl
  | c :: rest, h => by
    have hc : ¬c = dollarChar := fun hh => h (hh ▸ List.mem_cons_self c rest)
    rw [getSubstitution.eq_def]
    simp only [if_neg hc]
    rw [getSubstitution_id matched pre suf rest
      fun hm => h (List.mem_cons_of_mem c hm)]

theorem replaceFirstGo_eq_literal (pat rep : List Char)
    (hrep : dollarChar ∉ rep) :
    ∀ (l pre : List Char),
      replaceFirstGo pat rep pre l = replaceFirstAux pat rep l
  | [], pre => by
    simp only [replaceFirstGo, replaceFirstAux]
    rw [getSubstitution_id _ _ _ rep hrep]
  | c :: rest, pre => by
    cases hp : pat.isPrefixOf (c :: rest) with
    | true =>
      simp only [replaceFirstGo, replaceFirstAux, hp, if_true]
      rw [getSubstitution_id _ _ _ rep hrep]
    | false =>
      simp only [replaceFirstGo, replaceFirstAux, hp, Bool.false_eq_true,
        if_false]
      rw [replaceFirstGo_eq_literal pat rep hrep rest (pre ++ [c])]

theorem replaceFirst_eq_literal (s pat rep : String)
    (h : dollarChar ∉ rep.data) :
    replaceFirst s pat rep = replaceFirstLiteral s pat rep := by
  unfold replaceFirst replaceFirstLiteral
  rw [replaceFirstGo_eq_literal pat.data rep.data h s.data []]

theorem dollar_free_link_text (t : String) (h : dollarChar ∉ t.data) :
    dollarChar ∉ ("[" ++ t ++ "](#" ++ t ++ ")").data := by
  intro hm
  rw [String.data_append, String.data_append, String.data_append,
    String.data_append] at hm
  simp only [List.mem_append] at hm
  rcases hm with ((((hx | hx) | hx) | hx) | hx)
  · exact absurd hx (by decide)
  · exact h hx
  · exact absurd hx (by decide)
  · exact h hx
  · exact absurd hx (by decide)

/-- Counterexample to C5 as stated: the replace call applies JavaScript
dollar substitution to the replacement string, so a cross-reference to the
declared name A-dollar-dollar renders with the dollar pair collapsed,
not as the verbatim markdown link built from the name. -/
theorem c5_dollar_substitution_counterexample :
    Markdown.stringifyLink ⟨some ("A$$"), "\x7b\x7d"⟩ false = "[A$](#A$)" ∧
    ("[A$](#A$)" : String) ≠ "[" ++ "A$$" ++ "](#" ++ "A$$" ++ ")" ∧
    Markdown.gmSection Markdown.OutFormat.tables
        ("B", .typeDoc none none ⟨some ("A$$"), "\x7b\x7d"⟩) =
      "\n## B\nType: [A$](#A$)\n" := by
  refine ⟨by decide, by decide, by decide⟩

/-- C5 (amended): for every type-alias entry, the renderer emits a section
whose body is the Type prefix followed by the rendered shape, and the whole
output is the concatenation of the per-entry sections in mapping order;
rendering substitutes the first placeholder with the markdown link built
from a cross-reference leaf after JavaScript dollar substitution of the
replacement — verbatim whenever the name is dollar-free — and leaves the
literal text for an inline leaf. -/
theorem c5_alias_section_rendering :
    (∀ (m : Markdown.LinkedRecord) (fmt : Markdown.OutFormat),
      (Markdown.generateMarkdown m fmt).1 =
        concatAll (m.map (Markdown.gmSection fmt))) ∧
    (∀ (name : String) (d ex : Option String) (l : Markdown.Link)
      (fmt : Markdown.OutFormat),
      Markdown.gmSection fmt (name, .typeDoc d ex l) =
        "\n## " ++ name ++ "\n" ++ Markdown.descPart d ++ "Type: " ++
          Markdown.stringifyLink l false ++ "\n" ++ Markdown.examplePart ex) ∧
    (∀ t fmtStr : String, t ≠ "" → dollarChar ∉ t.data →
      Markdown.stringifyLink ⟨some t, fmtStr⟩ false =
        replaceFirstLiteral fmtStr ("\x7b\x7d")
          ("[" ++ t ++ "](#" ++ t ++ ")")) ∧
    (∀ fmtStr : String, Markdown.stringifyLink ⟨none, fmtStr⟩ false = fmtStr) := by
  refine ⟨fun m fmt => generateMarkdownS_fst m fmt Markdown.listLog [],
    ?_, ?_, fun fmtStr => rfl⟩
  · intro name d ex l fmt
    simp [Markdown.gmSection, Markdown.ldDescription, String.append_assoc]
  · intro t fmtStr ht hfree
    have hstr : Markdown.stringifyLink ⟨some t, fmtStr⟩ false =
        replaceFirst fmtStr ("\x7b\x7d") ("[" ++ t ++ "](#" ++ t ++ ")") := by
      simp [Markdown.stringifyLink, ht]
    rw [hstr]
    exact replaceFirst_eq_literal _ _ _ (dollar_free_link_text t hfree)

/-- Witness for the hypothesis-bearing conjunct of the alias-rendering
theorem: the cross-reference substitution at the concrete dollar-free link
target A over the bare placeholder template. -/
theorem c5_alias_section_rendering_witness :
    Markdown.stringifyLink ⟨some ("A"), "\x7b\x7d"⟩ false =
      replaceFirstLiteral ("\x7b\x7d") ("\x7b\x7d")
        ("[" ++ "A" ++ "](#" ++ "A" ++ ")") :=
  c5_alias_section_rendering.2.2.1 ("A") ("\x7b\x7d") (by decide) (by decide)

theorem pass2Step_fst_eq {σ₁ σ₂ : Type} (log₁ : σ₁ → String → σ₁)
    (log₂ : σ₂ → String → σ₂) (r : Markdown.LinkedRecord) (s₁ : σ₁) (s₂ : σ₂)
    (d : Markdown.Documentation) :
    (Markdown.pass2Step log₁ (r, s₁) d).1 =
      (Markdown.pass2Step log₂ (r, s₂) d).1 := by
  cases hg : Markdown.recGet r (Markdown.docName d) with
  | none => simp [Markdown.pass2Step, hg]
  | some v =>
    cases v with
    | typeDoc dd ee l =>
      cases hres : (Markdown.fixLink (fun t => Markdown.lookupTruthy r t) l).2 with
      | true => simp [Markdown.pass2Step, hg, hres]
      | false => simp [Markdown.pass2Step, hg, hres]
    | interfaceDoc dd ee ps =>
      simp only [Markdown.pass2Step, hg]
      rw [fixPropFold_fst log₁, fixPropFold_fst log₂]

theorem preprocess_fold_fst_eq {σ₁ σ₂ : Type} (log₁ : σ₁ → String → σ₁)
    (log₂ : σ₂ → String → σ₂) :
    ∀ (docs : List Markdown.Documentation) (r : Markdown.LinkedRecord)
      (s₁ : σ₁) (s₂ : σ₂),
      (docs.foldl (Markdown.pass2Step log₁) (r, s₁)).1 =
        (docs.foldl (Markdown.pass2Step log₂) (r, s₂)).1
  | [], r, s₁, s₂ => rfl
  | d :: rest, r, s₁, s₂ => by
    rw [List.foldl_cons, List.foldl_cons]
    have hr := pass2Step_fst_eq log₁ log₂ r s₁ s₂ d
    have heq : Markdown.pass2Step log₁ (r, s₁) d =
        ((Markdown.pass2Step log₂ (r, s₂) d).1,
         (Markdown.pass2Step log₁ (r, s₁) d).2) := by
      rw [← hr]
    rw [heq]
    exact preprocess_fold_fst_eq log₁ log₂ rest
      (Markdown.pass2Step log₂ (r, s₂) d).1
      (Markdown.pass2Step log₁ (r, s₁) d).2
      (Markdown.pass2Step log₂ (r, s₂) d).2

/-- C7: the diagnostic sink has no effect on the computed result: the linked
mapping, the rendered text, and the full pipeline output agree for any two
sink functions and sink states, and in particular re-running the pipeline on
identical input yields identical output. -/
theorem c7_sink_has_no_effect_on_result :
    ∀ {σ₁ σ₂ : Type} (log₁ : σ₁ → String → σ₁) (log₂ : σ₂ → String → σ₂)
      (s₁ : σ₁) (s₂ : σ₂) (docs : List Markdown.Documentation)
      (m : Markdown.LinkedRecord) (fmt : Markdown.OutFormat),
      (Markdown.preprocessForMarkdownS docs log₁ s₁).1 =
        (Markdown.preprocessForMarkdownS docs log₂ s₂).1 ∧
      (Markdown.generateMarkdownS m fmt log₁ s₁).1 =
        (Markdown.generateMarkdownS m fmt log₂ s₂).1 ∧
      (Markdown.generateMarkdownS
        (Markdown.preprocessForMarkdownS docs log₁ s₁).1 fmt log₁ s₁).1 =
        (Markdown.generateMarkdownS
          (Markdown.preprocessForMarkdownS docs log₂ s₂).1 fmt log₂ s₂).1 := by
  intro σ₁ σ₂ log₁ log₂ s₁ s₂ docs m fmt
  have hpre : (Markdown.preprocessForMarkdownS docs log₁ s₁).1 =
      (Markdown.preprocessForMarkdownS docs log₂ s₂).1 :=
    preprocess_fold_fst_eq log₁ log₂ docs (Markdown.pass1 docs) s₁ s₂
  refine ⟨hpre, ?_, ?_⟩
  · rw [generateMarkdownS_fst, generateMarkdownS_fst]
  · rw [generateMarkdownS_fst, generateMarkdownS_fst, hpre]

theorem foldl_max_congr {α : Type} (f g : α → Nat) (b : Nat) :
    ∀ (l : List α) (acc : Nat), b ≤ acc →
      (∀ x ∈ l, f x = g x ∨ (f x ≤ b ∧ g x ≤ b)) →
      l.foldl (fun a x => max a (f x)) acc =
        l.foldl (fun a x => max a (g x)) acc
  | [], acc, _, _ => rfl
  | x :: l, acc, hacc, h => by
    rw [List.foldl_cons, List.foldl_cons]
    rcases h x (List.mem_cons_self x l) with heq | ⟨hf, hg⟩
    · rw [heq]
      exact foldl_max_congr f g b l _ (le_trans hacc (Nat.le_max_left _ _))
        fun y hy => h y (List.mem_cons_of_mem x hy)
    · rw [Nat.max_eq_left (le_trans hf hacc), Nat.max_eq_left (le_trans hg hacc)]
      exact foldl_max_congr f g b l acc hacc
        fun y hy => h y (List.mem_cons_of_mem x hy)

theorem widths_decompose :
    ∀ (ps : List Markdown.LinkedPropertyDocumentation) (w : Markdown.ColWidths),
      ps.foldl Markdown.widthStep w =
        ⟨ps.foldl (fun a p => max a p.name.length) w.property,
         ps.foldl (fun a p => max a (Markdown.stringifyLink p.type false).length)
           w.type,
         ps.foldl (fun a p =>
           max a (if p.optional then ("true" : String) else "false").length)
           w.optional,
         ps.foldl (fun a p => max a (p.default.getD ("")).length) w.default,
         ps.foldl (fun a p => max a (p.description.getD ("")).length)
           w.description,
         ps.foldl (fun a p => max a (p.exampleText.getD ("")).length)
           w.exampleText⟩
  | [], w => by cases w; rfl
  | p :: ps, w => by
    rw [List.foldl_cons]
    rw [widths_decompose ps (Markdown.widthStep w p)]
    rfl

theorem widths_eq_spec (ps : List Markdown.LinkedPropertyDocumentation) :
    ps.foldl Markdown.widthStep Markdown.headerWidths = Markdown.specWidths ps := by
  rw [widths_decompose]
  unfold Markdown.specWidths Markdown.headerWidths
  congr 1
  · refine foldl_max_congr _ _ (("Optional").length) ps _ (le_refl _) ?_
    intro p _
    right
    constructor
    · cases p.optional <;> decide
    · cases p.optional <;> decide
  · refine foldl_max_congr _ _ (("Default").length) ps _ (le_refl _) ?_
    intro p _
    cases p.default with
    | none => right; constructor <;> decide
    | some dv => left; rfl

theorem foldl_append_eq_concat {α : Type} (f : α → String) :
    ∀ (l : List α) (init : String),
      l.foldl (fun out x => out ++ f x) init = init ++ concatAll (l.map f)
  | [], init => by simp [concatAll]
  | x :: l, init => by
    rw [List.foldl_cons, foldl_append_eq_concat f l (init ++ f x),
      String.append_assoc]
    rfl

theorem generateTable_eq_specTable (ps : List Markdown.LinkedPropertyDocumentation) :
    Markdown.generateTable ps = Markdown.specTable ps := by
  unfold Markdown.generateTable Markdown.specTable
  rw [widths_eq_spec, foldl_append_eq_concat, String.append_assoc]

set_option maxRecDepth 100000 in
/-- C8: the table renderer agrees with the specification's column rule (each
column as wide as the larger of its header and its widest rendered cell,
cells right-padded, Optional rendered Yes/No and absent Default rendered as
a dash), and the one-required-property example renders exactly a header row,
a separator row and one data row with Optional No and Default dash. -/
theorem c8_table_layout :
    (∀ ps, Markdown.generateTable ps = Markdown.specTable ps) ∧
    (Markdown.generateMarkdown
      (Markdown.preprocessForMarkdown
        [.interfaceDoc ("I") none none
          [⟨"name", none, none, none, none, "string"⟩]]).1
      Markdown.OutFormat.tables).1 =
      "\n## I\n| Property | Type   | Optional | Default | Description | Example |\n| -------- | ------ | -------- | ------- | ----------- | ------- |\n| name     | string | No       | -       |             |         |\n" := by
  exact ⟨generateTable_eq_specTable, by decide⟩

theorem linkedDocDiags_linkify (has : String → Bool) (d : Markdown.Documentation) :
    Markdown.linkedDocDiags has (Markdown.docName d) (Markdown.linkifyDoc d).2 =
      Markdown.docDiags has d := by
  cases d with
  | typeDoc n dd ee t =>
    simp [Markdown.linkedDocDiags, Markdown.linkifyDoc, Markdown.docDiags,
      Markdown.docName]
  | interfaceDoc n dd ee ps =>
    simp only [Markdown.linkedDocDiags, Markdown.linkifyDoc,
      Markdown.docDiags, Markdown.docName, List.flatMap_map]
    congr 1

theorem find?_reverse_of_nodup :
    ∀ (docs : List Markdown.Documentation) (d : Markdown.Documentation),
      (docs.map Markdown.docName).Nodup → d ∈ docs →
      docs.reverse.find? (fun x => Markdown.docName x == Markdown.docName d) =
        some d
  | [], d, _, hmem => absurd hmem (List.not_mem_nil d)
  | d' :: rest, d, hnd, hmem => by
    rw [List.reverse_cons, List.find?_append]
    have hdnotin : Markdown.docName d' ∉ rest.map Markdown.docName := by
      rw [List.map_cons, List.nodup_cons] at hnd
      exact hnd.1
    have hndrest : (rest.map Markdown.docName).Nodup := by
      rw [List.map_cons, List.nodup_cons] at hnd
      exact hnd.2
    rcases List.mem_cons.mp hmem with rfl | hmemr
    · have hnone : rest.reverse.find?
          (fun x => Markdown.docName x == Markdown.docName d) = none := by
        rw [List.find?_eq_none]
        intro x hx hbe
        have hxmem : x ∈ rest := List.mem_reverse.mp hx
        exact hdnotin
          ((beq_iff_eq.mp hbe) ▸ List.mem_map_of_mem Markdown.docName hxmem)
      rw [hnone]
      simp [List.find?_cons, beq_self_eq_true]
    · rw [find?_reverse_of_nodup rest d hndrest hmemr]
      rfl

theorem pass1_no_proto (docs : List Markdown.Documentation) :
    Markdown.recHas (Markdown.pass1 docs) ("__proto__") = false := by
  unfold Markdown.pass1
  rw [foldl_pass1_has, if_pos rfl]
  rfl

theorem preprocess_get_pass1 (docs : List Markdown.Documentation)
    (hnd : (docs.map Markdown.docName).Nodup)
    (hproto : ("__proto__") ∉ docs.map Markdown.docName) :
    ∀ d ∈ docs, Markdown.recGet (Markdown.pass1 docs) (Markdown.docName d) =
      some (Markdown.linkifyDoc d).2 := by
  intro d hd
  have hdp : Markdown.docName d ≠ "__proto__" := by
    intro hh
    exact hproto (hh ▸ List.mem_map_of_mem Markdown.docName hd)
  unfold Markdown.pass1
  rw [foldl_pass1_get, if_neg hdp, find?_reverse_of_nodup docs d hnd hd]

theorem pass1_lookup (docs : List Markdown.Documentation) (t : String) :
    Markdown.lookupTruthy (Markdown.pass1 docs) t =
      ((docs.any fun x => Markdown.docName x == t) ||
        Markdown.objectProtoKeys.contains t) := by
  unfold Markdown.lookupTruthy
  by_cases ht : t = "__proto__"
  · subst ht
    rw [pass1_no_proto]
    have hmem : Markdown.objectProtoKeys.contains ("__proto__") = true := by
      decide
    rw [hmem]
    cases docs.any fun x => Markdown.docName x == "__proto__" <;> rfl
  · unfold Markdown.pass1
    rw [foldl_pass1_has, if_neg ht]
    have : Markdown.recHas [] t = false := rfl
    rw [this, Bool.or_false]

theorem preprocess_diags_of_nodup (docs : List Markdown.Documentation)
    (hnd : (docs.map Markdown.docName).Nodup)
    (hproto : ("__proto__") ∉ docs.map Markdown.docName) :
    (Markdown.preprocessForMarkdown docs).2 =
      docs.flatMap
        (Markdown.docDiags fun t =>
          (docs.any fun x => Markdown.docName x == t) ||
            Markdown.objectProtoKeys.contains t) := by
  unfold Markdown.preprocessForMarkdown Markdown.preprocessForMarkdownS
  rw [pass2_fold_diags docs (Markdown.pass1 docs) [] (pass1_no_proto docs)
    (preprocess_get_pass1 docs hnd hproto) hnd]
  rw [List.nil_append]
  have hfun : (fun t => Markdown.lookupTruthy (Markdown.pass1 docs) t) =
      (fun t => (docs.any fun x => Markdown.docName x == t) ||
        Markdown.objectProtoKeys.contains t) :=
    funext fun t => pass1_lookup docs t
  rw [hfun]
  congr 1
  funext d
  exact linkedDocDiags_linkify _ d

/-- Counterexample to C4 as stated: the leaf toString is absent from the
DeclarationSet, yet the falsy check on the mapping sees the inherited
Object.prototype.toString, so the resolver keeps the cross-reference and
emits no diagnostic at all. -/
theorem c4_inherited_member_counterexample :
    Markdown.preprocessForMarkdown
        [.interfaceDoc ("C") none none
          [⟨"y", none, none, none, none, "toString"⟩]] =
      ([("C", .interfaceDoc none none
          [⟨"y", ⟨some ("toString"), "\x7b\x7d"⟩, false, none, none, none⟩])],
       []) := by
  decide

/-- C4 (amended): a leaf absent from the DeclarationSet degrades to literal
text with exactly one owner-identifying diagnostic, provided its name is
not an inherited Object.prototype member name; leaves colliding with those
inherited names are treated as present (kept as links, no diagnostic).
Declaration names are taken distinct and none of them the proto key.  The
run never fails, and the specification's example interface C with property
y of undeclared type D yields the single diagnostic naming C.y, degrades
the link to bare text D, and renders it as plain text D. -/
theorem c4_unresolved_reference_degradation :
    (∀ docs : List Markdown.Documentation,
      (docs.map Markdown.docName).Nodup →
      ("__proto__") ∉ docs.map Markdown.docName →
      (Markdown.preprocessForMarkdown docs).2 =
        docs.flatMap
          (Markdown.docDiags fun t =>
            (docs.any fun x => Markdown.docName x == t) ||
              Markdown.objectProtoKeys.contains t)) ∧
    Markdown.preprocessForMarkdown
        [.interfaceDoc ("C") none none [⟨"y", none, none, none, none, "D"⟩]] =
      ([("C", .interfaceDoc none none
          [⟨"y", ⟨none, "D"⟩, false, none, none, none⟩])],
       ["WARNING: Could not resolve type link for C.y"]) ∧
    Markdown.stringifyLink ⟨none, "D"⟩ false = "D" :=
  ⟨preprocess_diags_of_nodup, by decide, rfl⟩

/-- Witness for the hypothesis-bearing conjunct of the unresolved-reference
theorem, instantiated at the specification's example. -/
theorem c4_unresolved_reference_degradation_witness :
    (Markdown.preprocessForMarkdown
      [.interfaceDoc ("C") none none [⟨"y", none, none, none, none, "D"⟩]]).2 =
      [Markdown.Documentation.interfaceDoc ("C") none none
        [⟨"y", none, none, none, none, "D"⟩]].flatMap
        (Markdown.docDiags fun t =>
          ([Markdown.Documentation.interfaceDoc ("C") none none
            [⟨"y", none, none, none, none, "D"⟩]].any
            fun x => Markdown.docName x == t) ||
            Markdown.objectProtoKeys.contains t) :=
  c4_unresolved_reference_degradation.1
    [.interfaceDoc ("C") none none [⟨"y", none, none, none, none, "D"⟩]]
    (by decide) (by decide)

theorem recGet_cons (e : String × Markdown.LinkedDocumentation)
    (rest : Markdown.LinkedRecord) (n : String) :
    Markdown.recGet (e :: rest) n =
      if (e.1 == n) = true then some e.2 else Markdown.recGet rest n := by
  unfold Markdown.recGet
  cases he : (e.1 == n) with
  | true => simp [List.find?_cons, he]
  | false => simp [List.find?_cons, he]

theorem filter_key_length_one :
    ∀ (r : Markdown.LinkedRecord) (n : String),
      (r.map Prod.fst).Nodup →
      (Markdown.recGet r n).isSome = true →
      (r.filter fun e => e.1 == n).length = 1
  | [], n, _, hsome => by simp [Markdown.recGet] at hsome
  | e :: rest, n, hnd, hsome => by
    have hdnotin : e.1 ∉ rest.map Prod.fst := by
      rw [List.map_cons, List.nodup_cons] at hnd
      exact hnd.1
    have hndrest : (rest.map Prod.fst).Nodup := by
      rw [List.map_cons, List.nodup_cons] at hnd
      exact hnd.2
    cases he : (e.1 == n) with
    | true =>
      have hen : e.1 = n := beq_iff_eq.mp he
      rw [List.filter_cons, if_pos he]
      have hnil : (rest.filter fun x => x.1 == n) = [] := by
        rw [List.filter_eq_nil_iff]
        intro x hx hbe
        exact hdnotin
          (hen ▸ (beq_iff_eq.mp hbe) ▸ List.mem_map_of_mem Prod.fst hx)
      rw [hnil]
      rfl
    | false =>
      rw [List.filter_cons, if_neg (by simp [he])]
      refine filter_key_length_one rest n hndrest ?_
      rw [recGet_cons, if_neg (by simp [he])] at hsome
      exact hsome

theorem pass1_keys_nodup (docs : List Markdown.Documentation) :
    ((Markdown.pass1 docs).map Prod.fst).Nodup := by
  unfold Markdown.pass1
  exact foldl_pass1_keys_nodup docs [] (by simp)

/-- Counterexample to C9 as stated: a declaration named like the proto key
is assigned through the inherited accessor, creating no own mapping entry,
so the output mapping is empty and no section at all is rendered for it. -/
theorem c9_proto_name_counterexample :
    Markdown.preprocessForMarkdown
        [.typeDoc ("__proto__") none none ("string")] = ([], []) ∧
    (Markdown.generateMarkdown ([] : Markdown.LinkedRecord)
      Markdown.OutFormat.tables).1 = "" := by
  constructor
  · decide
  · rfl

/-- C9 (amended): when no declaration is named like the proto key, a
duplicated name leaves exactly one mapping entry, holding the resolved
(linkified and degradation-fixed) form of the last declaration bearing that
name, and the rendered output is the concatenation of one section per
mapping entry, hence exactly one section for that name. -/
theorem c9_duplicate_names_last_wins :
    ∀ (docs : List Markdown.Documentation) (n : String)
      (d : Markdown.Documentation),
      docs.reverse.find? (fun x => Markdown.docName x == n) = some d →
      ("__proto__") ∉ docs.map Markdown.docName →
      (((Markdown.preprocessForMarkdown docs).1).filter
        fun e => e.1 == n).length = 1 ∧
      Markdown.recGet (Markdown.preprocessForMarkdown docs).1 n =
        some (Markdown.fixDocu
          (fun t => (docs.any fun x => Markdown.docName x == t) ||
            Markdown.objectProtoKeys.contains t)
          (Markdown.linkifyDoc d).2) ∧
      ∀ fmt, (Markdown.generateMarkdown
          (Markdown.preprocessForMarkdown docs).1 fmt).1 =
        concatAll
          (((Markdown.preprocessForMarkdown docs).1).map
            (Markdown.gmSection fmt)) := by
  intro docs n d hfind hproto
  have hbe := List.find?_some hfind
  have hdn : Markdown.docName d = n := beq_iff_eq.mp hbe
  have hdmem : d ∈ docs :=
    List.mem_reverse.mp (List.mem_of_find?_eq_some hfind)
  have hnp : n ≠ "__proto__" := by
    intro hh
    exact hproto ((hdn.trans hh) ▸ List.mem_map_of_mem Markdown.docName hdmem)
  have hany : (docs.any fun x => Markdown.docName x == n) = true :=
    List.any_eq_true.mpr ⟨d, hdmem, beq_iff_eq.mpr hdn⟩
  have hget1 : Markdown.recGet (Markdown.pass1 docs) n =
      some (Markdown.linkifyDoc d).2 := by
    unfold Markdown.pass1
    rw [foldl_pass1_get, if_neg hnp, hfind]
  have hfun : (fun t => Markdown.lookupTruthy (Markdown.pass1 docs) t) =
      (fun t => (docs.any fun x => Markdown.docName x == t) ||
        Markdown.objectProtoKeys.contains t) :=
    funext fun t => pass1_lookup docs t
  have hfin : Markdown.recGet (Markdown.preprocessForMarkdown docs).1 n =
      some (Markdown.fixDocu
        (fun t => (docs.any fun x => Markdown.docName x == t) ||
          Markdown.objectProtoKeys.contains t)
        (Markdown.linkifyDoc d).2) := by
    unfold Markdown.preprocessForMarkdown Markdown.preprocessForMarkdownS
    rw [pass2_fold_get Markdown.listLog docs (Markdown.pass1 docs) [] n
      (pass1_no_proto docs)]
    rw [hany, if_pos rfl, hget1, Option.map_some', hfun]
  have hkeys : ((Markdown.preprocessForMarkdown docs).1).map Prod.fst =
      (Markdown.pass1 docs).map Prod.fst := by
    unfold Markdown.preprocessForMarkdown Markdown.preprocessForMarkdownS
    exact pass2_fold_keys Markdown.listLog docs (Markdown.pass1 docs) []
  refine ⟨?_, hfin, ?_⟩
  · refine filter_key_length_one _ n ?_ ?_
    · rw [hkeys]; exact pass1_keys_nodup docs
    · rw [hfin]; rfl
  · intro fmt
    exact generateMarkdownS_fst _ fmt Markdown.listLog []

/-- Witness for the duplicate-name theorem: two aliases both named A; the
mapping keeps one entry holding the resolved form of the second. -/
theorem c9_duplicate_names_last_wins_witness :
    (((Markdown.preprocessForMarkdown
      [.typeDoc ("A") none none ("X"), .typeDoc ("A") none none ("string")]).1).filter
        fun e => e.1 == "A").length = 1 ∧
    Markdown.recGet (Markdown.preprocessForMarkdown
      [.typeDoc ("A") none none ("X"), .typeDoc ("A") none none ("string")]).1 "A" =
      some (Markdown.fixDocu
        (fun t => ([Markdown.Documentation.typeDoc ("A") none none ("X"),
          Markdown.Documentation.typeDoc ("A") none none ("string")].any
          fun x => Markdown.docName x == t) ||
          Markdown.objectProtoKeys.contains t)
        (Markdown.linkifyDoc (.typeDoc ("A") none none ("string"))).2) ∧
    (Markdown.generateMarkdown
      (Markdown.preprocessForMarkdown
        [.typeDoc ("A") none none ("X"), .typeDoc ("A") none none ("string")]).1
      Markdown.OutFormat.tables).1 =
      concatAll
        (((Markdown.preprocessForMarkdown
          [.typeDoc ("A") none none ("X"),
           .typeDoc ("A") none none ("string")]).1).map
          (Markdown.gmSection Markdown.OutFormat.tables)) := by
  have h := c9_duplicate_names_last_wins
    [.typeDoc ("A") none none ("X"), .typeDoc ("A") none none ("string")]
    ("A") (.typeDoc ("A") none none ("string")) (by decide) (by decide)
  exact ⟨h.1, h.2.1, h.2.2 Markdown.OutFormat.tables⟩

theorem data_append_brackets (n : String) :
    (n ++ "[]").data = n.data ++ ['[', ']'] := by
  rw [String.data_append]

theorem linkifyType_array (n : String) :
    Markdown.linkifyType (n ++ "[]") = ⟨some n, "\x7b\x7d[]"⟩ := by
  have hdata := data_append_brackets n
  have hlast : (n ++ "[]").data.getLast? = some ']' := by
    rw [hdata, getLast?_append_right _ (by simp)]
    rfl
  have hmem : (n ++ "[]") ∉ Markdown.primitiveNames := by
    intro hm
    simp only [Markdown.primitiveNames, List.mem_cons, List.mem_singleton,
      List.not_mem_nil, or_false] at hm
    rcases hm with h | h | h | h <;> (rw [h] at hlast; exact absurd hlast (by decide))
  have hsuf : strEndsWith (n ++ "[]") ("[]") = true := by
    unfold strEndsWith
    rw [hdata]
    show (['[', ']'].isSuffixOf (n.data ++ ['[', ']'])) = true
    simp [List.isSuffixOf, List.reverse_append, List.isPrefixOf]
  have hslice : strSliceDropRight (n ++ "[]") 2 = n := by
    unfold strSliceDropRight
    rw [hdata]
    have hlen : (n.data ++ ['[', ']']).length - 2 = n.data.length := by
      simp
    rw [hlen, List.take_left]
  simp [Markdown.linkifyType, hmem, hsuf, hslice]

/-- Counterexample to C10 as stated: two links whose target names are not
keys of the mapping and yet are not degraded: a target colliding with an
inherited Object.prototype member name is treated as resolved (link kept,
no diagnostic), and an empty target (an array over the empty tuple text)
is falsy, so its format template survives unreplaced. -/
theorem c10_kept_link_counterexample :
    Markdown.preprocessForMarkdown
        [.typeDoc ("T") none none ("toString" ++ "[]")] =
      ([("T", .typeDoc none none ⟨some ("toString"), "\x7b\x7d[]"⟩)], []) ∧
    Markdown.preprocessForMarkdown [.typeDoc ("T") none none ("[]")] =
      ([("T", .typeDoc none none ⟨some (""), "\x7b\x7d[]"⟩)], []) ∧
    Markdown.stringifyLink ⟨some (""), "\x7b\x7d[]"⟩ false = "\x7b\x7d[]" := by
  refine ⟨by decide, by decide, rfl⟩

/-- C10 (amended): the degradation step replaces the whole format template
with the bare target name and removes the target exactly for targets that
are nonempty and read as falsy on the mapping (not an own key, not an
inherited Object.prototype member name); consequently an alias over an
array of such an undeclared element name keeps only the bare element name,
the array suffix being discarded, and renders as that plain text. -/
theorem c10_degradation_discards_array_suffix :
    (∀ (has : String → Bool) (t fmtStr : String), t ≠ "" → has t = false →
      Markdown.fixLink has ⟨some t, fmtStr⟩ = (⟨none, t⟩, true)) ∧
    (∀ n T : String, n ≠ "" → n ≠ T →
      Markdown.objectProtoKeys.contains n = false → T ≠ "__proto__" →
      Markdown.preprocessForMarkdown [.typeDoc T none none (n ++ "[]")] =
        ([(T, .typeDoc none none ⟨none, n⟩)], [Markdown.unresolvedMsg T]) ∧
      Markdown.stringifyLink ⟨none, n⟩ false = n) := by
  constructor
  · intro has t fmtStr ht hhas
    simp [Markdown.fixLink, ht, hhas]
  · intro n T hn hnT hnk hTp
    refine ⟨?_, rfl⟩
    have hTn : (T == n) = false :=
      beq_eq_false_iff_ne.mpr fun h => hnT h.symm
    have hpass1 : Markdown.pass1 [.typeDoc T none none (n ++ "[]")] =
        [(T, .typeDoc none none ⟨some n, "\x7b\x7d[]"⟩)] := by
      simp [Markdown.pass1, Markdown.pass1Step, Markdown.linkifyDoc,
        Markdown.recSet, Markdown.recHas, linkifyType_array, hTp]
    unfold Markdown.preprocessForMarkdown Markdown.preprocessForMarkdownS
    rw [hpass1, List.foldl_cons, List.foldl_nil]
    have hget : Markdown.recGet
        [(T, Markdown.LinkedDocumentation.typeDoc none none
          ⟨some n, "\x7b\x7d[]"⟩)] T =
        some (.typeDoc none none ⟨some n, "\x7b\x7d[]"⟩) := by
      simp [Markdown.recGet, List.find?_cons, beq_self_eq_true]
    have hlook : Markdown.lookupTruthy
        [(T, Markdown.LinkedDocumentation.typeDoc none none
          ⟨some n, "\x7b\x7d[]"⟩)] n = false := by
      unfold Markdown.lookupTruthy
      have hhas : Markdown.recHas
          [(T, Markdown.LinkedDocumentation.typeDoc none none
            ⟨some n, "\x7b\x7d[]"⟩)] n = false := by
        simp [Markdown.recHas, hTn]
      rw [hhas, hnk]
      rfl
    have hfix : Markdown.fixLink
        (fun t => Markdown.lookupTruthy
          [(T, Markdown.LinkedDocumentation.typeDoc none none
            ⟨some n, "\x7b\x7d[]"⟩)] t)
        ⟨some n, "\x7b\x7d[]"⟩ = (⟨none, n⟩, true) := by
      simp [Markdown.fixLink, hn, hlook]
    simp only [Markdown.pass2Step, Markdown.docName, hget, hfix, if_true]
    simp [Markdown.recSet, Markdown.recHas, Markdown.recGet,
      beq_self_eq_true, Markdown.listLog, hTp]

/-- Witness for the degradation theorem: the element name N over alias T. -/
theorem c10_degradation_discards_array_suffix_witness :
    Markdown.fixLink (fun _ => false) ⟨some ("N"), "\x7b\x7d[]"⟩ =
      (⟨none, "N"⟩, true) ∧
    Markdown.preprocessForMarkdown
        [.typeDoc ("T") none none ("N" ++ "[]")] =
      ([("T", .typeDoc none none ⟨none, "N"⟩)],
       [Markdown.unresolvedMsg ("T")]) ∧
    Markdown.stringifyLink ⟨none, "N"⟩ false = "N" :=
  ⟨c10_degradation_discards_array_suffix.1 (fun _ => false) ("N")
      ("\x7b\x7d[]") (by decide) rfl,
    (c10_degradation_discards_array_suffix.2 ("N") ("T") (by decide)
      (by decide) (by decide) (by decide)).1,
    (c10_degradation_discards_array_suffix.2 ("N") ("T") (by decide)
      (by decide) (by decide) (by decide)).2⟩

theorem fixLink_none {has : String → Bool} {l : Markdown.Link}
    (h : l.toRef = none) : Markdown.fixLink has l = (l, false) := by
  simp [Markdown.fixLink, h]

theorem fixPropFold_noref {σ : Type} (log : σ → String → σ)
    (r : Markdown.LinkedRecord) (n : String) :
    ∀ (ps : List Markdown.LinkedPropertyDocumentation)
      (acc : List Markdown.LinkedPropertyDocumentation) (s : σ),
      (∀ p ∈ ps, p.type.toRef = none) →
      ps.foldl (Markdown.fixPropStep log r n) (acc, s) = (acc ++ ps, s)
  | [], acc, s, _ => by simp
  | p :: ps, acc, s, h => by
    rw [List.foldl_cons]
    have hp : p.type.toRef = none := h p (List.mem_cons_self p ps)
    have hstep : Markdown.fixPropStep log r n (acc, s) p = (acc ++ [p], s) := by
      simp [Markdown.fixPropStep,
        @fixLink_none (fun t => Markdown.lookupTruthy r t) _ hp]
    rw [hstep, fixPropFold_noref log r n ps _ s
      (fun q hq => h q (List.mem_cons_of_mem p hq))]
    simp

theorem pass2Step_noref {σ : Type} (log : σ → String → σ)
    (r : Markdown.LinkedRecord) (s : σ) (d : Markdown.Documentation)
    (hr : Markdown.recHas r ("__proto__") = false)
    (h : ∀ k v, Markdown.recGet r k = some v → Markdown.ldNoRef v) :
    (Markdown.pass2Step log (r, s) d).2 = s ∧
    ∀ k v, Markdown.recGet ((Markdown.pass2Step log (r, s) d).1) k = some v →
      Markdown.ldNoRef v := by
  cases hg : Markdown.recGet r (Markdown.docName d) with
  | none =>
    constructor
    · simp [Markdown.pass2Step, hg]
    · intro k v hk
      refine h k v ?_
      simpa [Markdown.pass2Step, hg] using hk
  | some v =>
    cases v with
    | typeDoc dd ee l =>
      have hl : l.toRef = none := h _ _ hg
      have hfix := @fixLink_none (fun t => Markdown.lookupTruthy r t) _ hl
      constructor
      · simp [Markdown.pass2Step, hg, hfix]
      · intro k w hk
        refine h k w ?_
        simpa [Markdown.pass2Step, hg, hfix] using hk
    | interfaceDoc dd ee ps =>
      have hps : ∀ p ∈ ps, p.type.toRef = none := h _ _ hg
      have hfold := fixPropFold_noref log r (Markdown.docName d) ps [] s hps
      constructor
      · simp [Markdown.pass2Step, hg, hfold]
      · intro k w hk
        simp only [Markdown.pass2Step, hg, hfold] at hk
        have hdp : Markdown.docName d ≠ "__proto__" := by
          intro hh
          rw [hh] at hg
          rw [recGet_isSome_recHas hg] at hr
          simp at hr
        by_cases hkd : Markdown.docName d = k
        · rw [← hkd, recGet_set_eq _ _ _ hdp] at hk
          cases hk
          simpa [Markdown.ldNoRef] using hps
        · rw [recGet_set_ne _ _ _ _ fun hh => hkd hh.symm] at hk
          exact h k w hk

theorem pass2_fold_noref {σ : Type} (log : σ → String → σ) :
    ∀ (docs : List Markdown.Documentation) (r : Markdown.LinkedRecord) (s : σ),
      Markdown.recHas r ("__proto__") = false →
      (∀ k v, Markdown.recGet r k = some v → Markdown.ldNoRef v) →
      (docs.foldl (Markdown.pass2Step log) (r, s)).2 = s
  | [], r, s, _, _ => rfl
  | d :: rest, r, s, hr, h => by
    rw [List.foldl_cons]
    obtain ⟨hs, hpres⟩ := pass2Step_noref log r s d hr h
    have hr' : Markdown.recHas ((Markdown.pass2Step log (r, s) d).1)
        ("__proto__") = false := by
      rw [pass2Step_has]
      exact hr
    have := pass2_fold_noref log rest (Markdown.pass2Step log (r, s) d).1
      (Markdown.pass2Step log (r, s) d).2 hr' hpres
    rw [show rest.foldl (Markdown.pass2Step log) (Markdown.pass2Step log (r, s) d) =
      rest.foldl (Markdown.pass2Step log)
        ((Markdown.pass2Step log (r, s) d).1,
         (Markdown.pass2Step log (r, s) d).2) from rfl]
    rw [this, hs]

theorem linkify_noref_of_primitive {d : Markdown.Documentation}
    (h : ∀ t ∈ Markdown.typeTexts d, t ∈ Markdown.primitiveNames) :
    Markdown.ldNoRef (Markdown.linkifyDoc d).2 := by
  cases d with
  | typeDoc n dd ee t =>
    have ht : t ∈ Markdown.primitiveNames := h t (by simp [Markdown.typeTexts])
    simp [Markdown.linkifyDoc, Markdown.ldNoRef, Markdown.linkifyType, ht]
  | interfaceDoc n dd ee ps =>
    simp only [Markdown.linkifyDoc, Markdown.ldNoRef]
    intro p hp
    rcases List.mem_map.mp hp with ⟨q, hq, rfl⟩
    have ht : q.type ∈ Markdown.primitiveNames :=
      h q.type (by simp [Markdown.typeTexts]; exact ⟨q, hq, rfl⟩)
    simp [Markdown.linkifyProperty, Markdown.linkifyType, ht]

/-- Counterexample to C3 as stated: the quoted literal type text does become
a link target, and resolving an alias with that type emits one
unresolved-reference diagnostic. -/
theorem c3_quoted_literal_counterexample :
    (Markdown.linkifyType quotedLit).toRef = some quotedLit ∧
    (Markdown.preprocessForMarkdown
      [.typeDoc ("T") none none quotedLit]).2 =
      [Markdown.unresolvedMsg ("T")] := by
  decide

/-- C3 (amended): a type text is inlined exactly when it is one of the four
primitive names as the entire text: such leaves carry no link target and
declaration lists whose reachable type texts are all primitive yield no
diagnostics; a quoted-literal type text is not inlined and becomes a link
target over the bare placeholder. -/
theorem c3_amended_primitive_inlining :
    (∀ t ∈ Markdown.primitiveNames, Markdown.linkifyType t = ⟨none, t⟩) ∧
    (∀ docs, Markdown.allPrimitive docs →
      (Markdown.preprocessForMarkdown docs).2 = []) ∧
    (∀ s : String, s.data.head? = some quoteChar →
      strEndsWith s ("[]") = false →
      Markdown.linkifyType s = ⟨some s, "\x7b\x7d"⟩) := by
  refine ⟨?_, ?_, ?_⟩
  · intro t ht
    simp [Markdown.linkifyType, ht]
  · intro docs hall
    unfold Markdown.preprocessForMarkdown Markdown.preprocessForMarkdownS
    refine pass2_fold_noref Markdown.listLog docs (Markdown.pass1 docs) []
      (pass1_no_proto docs) ?_
    intro k v hk
    unfold Markdown.pass1 at hk
    rw [foldl_pass1_get] at hk
    by_cases hkp : k = "__proto__"
    · rw [if_pos hkp] at hk
      simp [Markdown.recGet] at hk
    rw [if_neg hkp] at hk
    cases hf : docs.reverse.find? fun d => Markdown.docName d == k with
    | none => rw [hf] at hk; simp [Markdown.recGet] at hk
    | some d =>
      rw [hf] at hk
      have hd : d ∈ docs :=
        List.mem_reverse.mp (List.mem_of_find?_eq_some hf)
      cases hk
      exact linkify_noref_of_primitive fun t ht => hall d hd t ht
  · intro s hhead hend
    have hmem : s ∉ Markdown.primitiveNames := by
      intro hm
      simp only [Markdown.primitiveNames, List.mem_cons, List.mem_singleton,
        List.not_mem_nil, or_false] at hm
      rcases hm with h | h | h | h <;>
        (rw [h] at hhead; exact absurd hhead (by decide))
    simp [Markdown.linkifyType, hmem, hend]

/-- Witness for the amended inlining theorem: the primitive name string is
inlined, the single all-primitive alias yields no diagnostics, and the
quoted literal becomes a link target. -/
theorem c3_amended_primitive_inlining_witness :
    Markdown.linkifyType ("string") = ⟨none, "string"⟩ ∧
    (Markdown.preprocessForMarkdown
      [.typeDoc ("T") none none ("string")]).2 = [] ∧
    Markdown.linkifyType quotedLit = ⟨some quotedLit, "\x7b\x7d"⟩ :=
  ⟨c3_amended_primitive_inlining.1 ("string") (by decide),
    c3_amended_primitive_inlining.2.1 [.typeDoc ("T") none none ("string")]
      (by
        intro d hd t ht
        simp only [List.mem_singleton] at hd
        subst hd
        simp only [Markdown.typeTexts, List.mem_singleton] at ht
        subst ht
        decide),
    c3_amended_primitive_inlining.2.2 quotedLit (by decide) (by decide)⟩

end Interdoc
